import Mathlib

/-!
# Verification of the bellini document serialization core

A shallow embedding of the `bellini` crate (document/value data model,
composable serializer, checksum-framed encoder and validated decoder),
with theorems checking the natural-language specification against it.

Modelling conventions:
* machine bytes and 64-bit integers are `Nat`/`Int` with explicit range
  side conditions where overflow matters;
* `f64` payloads are modelled by their 64-bit patterns (a `Nat`), which is
  what serialization transports;
* Rust results are `Except`/`Option`.
-/

set_option maxHeartbeats 1000000

set_option maxRecDepth 10000

namespace Bellini

/-- Embedding of `Text` from `src/core.rs`: a UTF-8 encoded string stored
as its raw byte vector (`Text(Vec<u8>)`). Bytes are modelled as `Nat`. -/
structure Text where
  bytes : List Nat
deriving DecidableEq, Repr

/-- Embedding of `Bytes` from `src/core.rs`: an arbitrary byte sequence. -/
structure Bytes where
  bytes : List Nat
deriving DecidableEq, Repr

/-- Embedding of the `Value` enum from `src/core.rs`: a tagged union over
null, scalars, seven homogeneous array variants, and the two recursive
variants `ArrayDynamic` and `Object`. `f64` payloads are modelled by their
64-bit bit patterns. -/
inductive Value where
  | null
  | bool (b : Bool)
  | string (t : Text)
  | bytes (b : Bytes)
  | u64 (n : Nat)
  | i64 (i : Int)
  | f64 (bits : Nat)
  | date (i : Int)
  | arrayBool (l : List Bool)
  | arrayString (l : List Text)
  | arrayBytes (l : List Bytes)
  | arrayU64 (l : List Nat)
  | arrayI64 (l : List Int)
  | arrayF64 (l : List Nat)
  | arrayDate (l : List Int)
  | arrayDynamic (l : List Value)
  | object (l : List (Text × Value))
deriving Repr

/-- Embedding of `Document` from `src/core.rs`: a 64-bit id plus an ordered
sequence of `(Text, Value)` fields. -/
structure Document where
  id : Nat
  fields : List (Text × Value)
deriving Repr

/-- Embedding of `Document::with_capacity` from `src/core.rs`: id zero, empty fields
(the capacity argument is only an allocation hint and carries no
observable content). -/
def Document.withCapacity (_capacity : Nat) : Document :=
  { id := 0, fields := [] }

/-- Embedding of `Document::set_id` from `src/core.rs`. -/
def Document.setId (d : Document) (v : Nat) : Document :=
  { d with id := v }

/-- Embedding of `Document::insert` from `src/core.rs`: pushes the pair at the end of
the field vector, unconditionally. -/
def Document.insert (d : Document) (key : Text) (value : Value) : Document :=
  { d with fields := d.fields ++ [(key, value)] }

/-- Embedding of `Document::into_fields` from `src/core.rs`. -/
def Document.intoFields (d : Document) : List (Text × Value) :=
  d.fields

/-- Embedding of `From<Vec<(Text, Value)>> for Document` from `src/core.rs`. -/
def Document.fromFields (value : List (Text × Value)) : Document :=
  { id := 0, fields := value }

/-- Embedding of `Document::default` (derived `Default` in `src/core.rs`): zero id and
empty field vector. -/
def Document.defaultDoc : Document :=
  { id := 0, fields := [] }

/-- A sequence of `insert` calls applied in order. -/
def Document.insertAll (d : Document) (ps : List (Text × Value)) : Document :=
  ps.foldl (fun d p => d.insert p.1 p.2) d

/-! ## Structural equality (Rust `derive(PartialEq)` on Document/Value/Text/Bytes)

The derived Rust `PartialEq` compares variant tags and then compares
payloads component-wise; `Text` and `Bytes` compare their raw byte
vectors. `Value::F64(f64)` payloads are compared with IEEE `f64::eq`
(never equal when NaN, `+0.0 == -0.0`), which is why `Value` derives only
`PartialEq` and not `Eq`; the model renders this over 64-bit patterns via
`f64Eq`. A separate syntactic equality `structEqValue` (plain pattern
equality on every payload) exists only to derive decidable equality of
the Lean `Value` type and is not the embedding of the program's
equality. -/

mutual

/-- Syntactic equality of the `Value` embedding: pattern equality on every
payload, including `f64` bit patterns. Used only to derive decidable
equality of the Lean type; the embedding of the program's derived
`PartialEq` is `beqValue` below. -/
def structEqValue : Value → Value → Bool
  | .null, .null => true
  | .bool a, .bool b => a == b
  | .string a, .string b => a.bytes == b.bytes
  | .bytes a, .bytes b => a.bytes == b.bytes
  | .u64 a, .u64 b => a == b
  | .i64 a, .i64 b => a == b
  | .f64 a, .f64 b => a == b
  | .date a, .date b => a == b
  | .arrayBool a, .arrayBool b => a == b
  | .arrayString a, .arrayString b => a.map Text.bytes == b.map Text.bytes
  | .arrayBytes a, .arrayBytes b => a.map Bytes.bytes == b.map Bytes.bytes
  | .arrayU64 a, .arrayU64 b => a == b
  | .arrayI64 a, .arrayI64 b => a == b
  | .arrayF64 a, .arrayF64 b => a == b
  | .arrayDate a, .arrayDate b => a == b
  | .arrayDynamic a, .arrayDynamic b => structEqValueList a b
  | .object a, .object b => structEqFieldList a b
  | _, _ => false

/-- Element-wise syntactic equality of dynamic value arrays. -/
def structEqValueList : List Value → List Value → Bool
  | [], [] => true
  | x :: xs, y :: ys => structEqValue x y && structEqValueList xs ys
  | _, _ => false

/-- Pair-wise syntactic equality of object field lists. -/
def structEqFieldList : List (Text × Value) → List (Text × Value) → Bool
  | [], [] => true
  | x :: xs, y :: ys =>
    (x.1.bytes == y.1.bytes && structEqValue x.2 y.2) && structEqFieldList xs ys
  | _, _ => false

end



def structEqValue_iff : ∀ a b : Value, (structEqValue a b = true ↔ a = b) := by
  have Hlist : ∀ (xs ys : List Value),
      (∀ x ∈ xs, ∀ y, (structEqValue x y = true ↔ x = y)) →
      (structEqValueList xs ys = true ↔ xs = ys) := by
    intro xs
    induction xs with
    | nil => intro ys _; cases ys <;> simp [structEqValueList]
    | cons x xs ihx =>
      intro ys H
      cases ys with
      | nil => simp [structEqValueList]
      | cons y ys =>
        simp only [structEqValueList, Bool.and_eq_true, List.cons.injEq]
        rw [H x (by simp), ihx ys (fun z hz => H z (by simp [hz]))]
  have Hfield : ∀ (xs ys : List (Text × Value)),
      (∀ x ∈ xs, ∀ y, (structEqValue x.2 y = true ↔ x.2 = y)) →
      (structEqFieldList xs ys = true ↔ xs = ys) := by
    intro xs
    induction xs with
    | nil => intro ys _; cases ys <;> simp [structEqFieldList]
    | cons x xs ihx =>
      intro ys H
      cases ys with
      | nil => simp [structEqFieldList]
      | cons y ys =>
        simp only [structEqFieldList, Bool.and_eq_true, List.cons.injEq]
        rw [H x (by simp), ihx ys (fun z hz => H z (by simp [hz]))]
        cases x with
        | mk xk xv =>
          cases y with
          | mk yk yv =>
            cases xk; cases yk
            simp [Prod.ext_iff, and_assoc]
  have Hmain : ∀ n (a : Value), sizeOf a ≤ n → ∀ b, (structEqValue a b = true ↔ a = b) := by
    intro n
    induction n using Nat.strong_induction_on with
    | _ n ih =>
      intro a ha b
      cases a <;> cases b <;>
        simp only [structEqValue, beq_iff_eq, Bool.false_eq_true, false_iff, reduceCtorEq,
          not_false_eq_true, Value.bool.injEq, Value.string.injEq, Value.bytes.injEq,
          Value.u64.injEq, Value.i64.injEq, Value.f64.injEq, Value.date.injEq,
          Value.arrayBool.injEq, Value.arrayString.injEq, Value.arrayBytes.injEq,
          Value.arrayU64.injEq, Value.arrayI64.injEq, Value.arrayF64.injEq,
          Value.arrayDate.injEq, Value.arrayDynamic.injEq, Value.object.injEq]
      case string.string t u => cases t; cases u; simp
      case bytes.bytes t u => cases t; cases u; simp
      case arrayString.arrayString t u =>
        constructor
        · intro h
          exact List.map_injective_iff.mpr (fun x y hxy => by cases x; cases y; simpa using hxy) h
        · intro h; rw [h]
      case arrayBytes.arrayBytes t u =>
        constructor
        · intro h
          exact List.map_injective_iff.mpr (fun x y hxy => by cases x; cases y; simpa using hxy) h
        · intro h; rw [h]
      case arrayDynamic.arrayDynamic xs ys =>
        refine Hlist xs ys (fun x hx y => ?_)
        refine ih (sizeOf x) ?_ x (le_refl _) y
        have h1 : sizeOf x < sizeOf xs := List.sizeOf_lt_of_mem hx
        have h2 : sizeOf (Value.arrayDynamic xs) ≤ n := ha
        simp only [Value.arrayDynamic.sizeOf_spec] at h2
        omega
      case object.object xs ys =>
        refine Hfield xs ys (fun x hx y => ?_)
        refine ih (sizeOf x.2) ?_ x.2 (le_refl _) y
        have h1 : sizeOf x < sizeOf xs := List.sizeOf_lt_of_mem hx
        have h2 : sizeOf (Value.object xs) ≤ n := ha
        have h3 : sizeOf x.2 < sizeOf x := by
          cases x; simp
        simp only [Value.object.sizeOf_spec] at h2
        omega
  intro a b
  exact Hmain (sizeOf a) a (le_refl _) b

instance : DecidableEq Value := fun a b => decidable_of_iff _ (structEqValue_iff a b)

instance : DecidableEq Document
  | ⟨i, f⟩, ⟨j, g⟩ => decidable_of_iff (i = j ∧ f = g) (by simp)

/-- Tests whether a 64-bit pattern encodes an IEEE binary64 NaN: all
eleven exponent bits set and a non-zero mantissa. -/
def f64IsNaN (n : Nat) : Bool :=
  decide ((n / 2 ^ 52) % 2 ^ 11 = 2047 ∧ ¬ n % 2 ^ 52 = 0)

/-- IEEE `f64::eq` over 64-bit patterns, as used by the derived
`PartialEq` on `Value::F64` in `src/core.rs`: a NaN operand is never
equal, the two zero patterns (`0` for `+0.0`, `2⁶³` for `-0.0`) are equal
to each other, and every other binary64 value has a unique pattern, so
the remaining cases compare patterns. -/
def f64Eq (a b : Nat) : Bool :=
  if f64IsNaN a || f64IsNaN b then false
  else if (a == 0 || a == 2 ^ 63) && (b == 0 || b == 2 ^ 63) then true
  else a == b

/-- Element-wise IEEE equality of `Vec<f64>` payloads (derived slice
`PartialEq`: equal lengths, element-wise `f64::eq`). -/
def f64ListEq : List Nat → List Nat → Bool
  | [], [] => true
  | x :: xs, y :: ys => f64Eq x y && f64ListEq xs ys
  | _, _ => false

mutual

/-- Embedding of the derived `PartialEq` on `Value` from `src/core.rs`:
equal variant tags and component-wise equal payloads, with `F64` and
`ArrayF64` payloads compared by IEEE `f64::eq`. -/
def beqValue : Value → Value → Bool
  | .null, .null => true
  | .bool a, .bool b => a == b
  | .string a, .string b => a.bytes == b.bytes
  | .bytes a, .bytes b => a.bytes == b.bytes
  | .u64 a, .u64 b => a == b
  | .i64 a, .i64 b => a == b
  | .f64 a, .f64 b => f64Eq a b
  | .date a, .date b => a == b
  | .arrayBool a, .arrayBool b => a == b
  | .arrayString a, .arrayString b => a.map Text.bytes == b.map Text.bytes
  | .arrayBytes a, .arrayBytes b => a.map Bytes.bytes == b.map Bytes.bytes
  | .arrayU64 a, .arrayU64 b => a == b
  | .arrayI64 a, .arrayI64 b => a == b
  | .arrayF64 a, .arrayF64 b => f64ListEq a b
  | .arrayDate a, .arrayDate b => a == b
  | .arrayDynamic a, .arrayDynamic b => beqValueList a b
  | .object a, .object b => beqFieldList a b
  | _, _ => false

/-- Element-wise equality of dynamic value arrays. -/
def beqValueList : List Value → List Value → Bool
  | [], [] => true
  | x :: xs, y :: ys => beqValue x y && beqValueList xs ys
  | _, _ => false

/-- Pair-wise equality of object field lists: byte equality on keys,
program equality on values. -/
def beqFieldList : List (Text × Value) → List (Text × Value) → Bool
  | [], [] => true
  | x :: xs, y :: ys => (x.1.bytes == y.1.bytes && beqValue x.2 y.2) && beqFieldList xs ys
  | _, _ => false

end

/-- Embedding of the derived `PartialEq` on `Document` from `src/core.rs`:
equal ids and pair-wise equal ordered fields. -/
def beqDocument (d e : Document) : Bool :=
  d.id == e.id && beqFieldList d.fields e.fields

/-- A canonical f64 payload: not NaN and not the negative-zero pattern.
On canonical payloads IEEE equality coincides with pattern equality. -/
def f64Canonical (n : Nat) : Bool :=
  !f64IsNaN n && decide (¬ n = 2 ^ 63)

mutual

/-- A value all of whose f64 payloads (anywhere in the tree) are
canonical. -/
def canonicalValue : Value → Bool
  | .f64 n => f64Canonical n
  | .arrayF64 l => l.all f64Canonical
  | .arrayDynamic l => canonicalValueList l
  | .object l => canonicalFieldList l
  | _ => true

/-- Canonicity of every element of a dynamic array. -/
def canonicalValueList : List Value → Bool
  | [] => true
  | v :: vs => canonicalValue v && canonicalValueList vs

/-- Canonicity of every field value of an object. -/
def canonicalFieldList : List (Text × Value) → Bool
  | [] => true
  | kv :: rest => canonicalValue kv.2 && canonicalFieldList rest

end

/-- A document all of whose field values have canonical f64 payloads. -/
def canonicalDocument (d : Document) : Bool :=
  canonicalFieldList d.fields

/-! ## Text rendering

`Display for Value` in `src/core.rs` writes only `self.as_type()`: the type
name. `Debug for ArchivedValue` walks the structure, rendering arrays
element-wise and objects pair-wise with a `", "` separator (the
`write_array!` macro's indexed loop). Formatter output is modelled as a
character list. The archived value mirrors `Value` structurally, so the
debug renderer is defined on the `Value` embedding. Rust's `str` Debug
escaping and `f64` Display are modelled by a simple escape table and by
decimal rendering of the 64-bit pattern; the claims proved below do not
depend on those leaf choices. -/

/-- Embedding of `Value::as_type` from `src/core.rs`: the stable short type name. -/
def Value.asType : Value → String
  | .null => "null"
  | .bool _ => "bool"
  | .string _ => "string"
  | .bytes _ => "bytes"
  | .u64 _ => "u64"
  | .i64 _ => "i64"
  | .f64 _ => "f64"
  | .date _ => "datetime"
  | .arrayBool _ => "array<bool>"
  | .arrayString _ => "array<string>"
  | .arrayBytes _ => "array<bytes>"
  | .arrayU64 _ => "array<u64>"
  | .arrayI64 _ => "array<i64>"
  | .arrayF64 _ => "array<f64>"
  | .arrayDate _ => "array<datetime>"
  | .arrayDynamic _ => "array<any>"
  | .object _ => "object"

/-- Embedding of `Display for Value` from `src/core.rs`: writes exactly `self.as_type()`. -/
def displayValue (v : Value) : String :=
  v.asType

/-- Model of Rust `str` Debug escaping for one byte. -/
def escapeByte (b : Nat) : List Char :=
  if b = 34 then '\\' :: ['"']
  else if b = 92 then '\\' :: ['\\']
  else if b = 10 then '\\' :: ['n']
  else if b = 13 then '\\' :: ['r']
  else if b = 9 then '\\' :: ['t']
  else [Char.ofNat b]

/-- Embedding of `Debug for ArchivedText`: the quoted, escaped string contents. -/
def debugTextR (t : Text) : List Char :=
  '"' :: (t.bytes.map escapeByte).flatten ++ ['"']

/-- Derived `Debug` on `ArchivedBytes`: the tuple-struct rendering of the
raw byte vector. -/
def debugBytesR (b : Bytes) : List Char :=
  "Bytes([".toList ++
    (((b.bytes.map (fun n => (toString n).toList)).enum.map
      (fun p => if p.1 = 0 then p.2 else ", ".toList ++ p.2)).flatten) ++
    "])".toList

/-- The `write_array!` loop from `src/core.rs`: the first element is written
bare, every later element is preceded by `", "`. -/
def renderSeq (parts : List (List Char)) : List Char :=
  (parts.enum.map (fun p => if p.1 = 0 then p.2 else ", ".toList ++ p.2)).flatten

/-- Comma-separated join, the specification-side description of the
`write_array!` loop. -/
def commaJoin : List (List Char) → List Char
  | [] => []
  | [s] => s
  | s :: rest => s ++ ", ".toList ++ commaJoin rest

mutual

/-- Embedding of `Debug for ArchivedValue` from `src/core.rs`: structural rendering of the
value's contents, element-wise for arrays, pair-wise for objects. -/
def debugValue : Value → List Char
  | .null => "null".toList
  | .bool b => (toString b).toList
  | .string t => debugTextR t
  | .bytes b => debugBytesR b
  | .u64 n => (toString n).toList
  | .i64 i => (toString i).toList
  | .f64 bits => (toString bits).toList
  | .date i => (toString i).toList
  | .arrayBool l => '[' :: renderSeq (l.map (fun b => (toString b).toList)) ++ [']']
  | .arrayString l => '[' :: renderSeq (l.map debugTextR) ++ [']']
  | .arrayBytes l => '[' :: renderSeq (l.map debugBytesR) ++ [']']
  | .arrayU64 l => '[' :: renderSeq (l.map (fun n => (toString n).toList)) ++ [']']
  | .arrayI64 l => '[' :: renderSeq (l.map (fun i => (toString i).toList)) ++ [']']
  | .arrayF64 l => '[' :: renderSeq (l.map (fun n => (toString n).toList)) ++ [']']
  | .arrayDate l => '[' :: renderSeq (l.map (fun i => (toString i).toList)) ++ [']']
  | .arrayDynamic l => '[' :: renderSeq (debugValueList l) ++ [']']
  | .object l =>
      Char.ofNat 123 :: renderSeq (debugFieldList l) ++ [Char.ofNat 125]

/-- Element renderings of a dynamic array, in order. -/
def debugValueList : List Value → List (List Char)
  | [] => []
  | v :: vs => debugValue v :: debugValueList vs

/-- Pair renderings `key: value` of an object's fields, in order. -/
def debugFieldList : List (Text × Value) → List (List Char)
  | [] => []
  | kv :: rest => (debugTextR kv.1 ++ ": ".toList ++ debugValue kv.2) :: debugFieldList rest

end



/-! ## Serializer (`src/serializer.rs`)

`BelliniSerializer<N, S>` composes an inner sink serializer `S`, a
fixed-capacity `StackScratch<N>`, and a `SharedSerializeMap`, and maps
each component's failure into its own variant of
`BelliniSerializerError`. The inner sink is an abstract state type with
fallible operations. The rkyv components `BufferScratch` and
`SharedSerializeMap` are dependency code not in this repository; their
contracts are modelled from the spec where noted. -/

/-- Rust `core::alloc::Layout`: size and alignment of a scratch request. -/
structure Layout where
  size : Nat
  align : Nat
deriving DecidableEq, Repr

/-- rkyv's `FixedSizeScratchError`: the rejected layout and the space that
remained in the fixed buffer. -/
structure FixedSizeScratchError where
  requested : Layout
  remaining : Nat
deriving DecidableEq, Repr

/-- rkyv's `SharedSerializeMapError::DuplicateSharedPointer`: the value
identity that was already registered. -/
structure DuplicateSharedPointer where
  ptr : Nat
deriving DecidableEq, Repr

/-- Embedding of `BelliniSerializerError` from `src/serializer.rs`: the three
distinct named failure variants, by origin. -/
inductive BelliniSerializerError (ε : Type) where
  | serializerError (e : ε)
  | scratchSpaceError (e : FixedSizeScratchError)
  | sharedError (e : DuplicateSharedPointer)
deriving Repr

/-- Position `pos` aligned up to the next multiple of `align` (the padding
computation of a bump allocator; `align` is a power of two ≥ 1 in Rust). -/
def alignUp (pos align : Nat) : Nat :=
  if pos % align = 0 then pos else pos + (align - pos % align)

/-- Modelled from the spec: `StackScratch::<N>::push_scratch` delegates to
rkyv's `BufferScratch` over a fixed `AlignedBytes<N>` buffer, whose code is
not part of this repository. Per the spec it is a fixed-size bump
allocator: a request whose aligned layout fits in the remaining capacity
is allocated, anything larger is a hard typed error — no fallback to heap
growth. Returns the allocated range start and the new bump position. -/
def StackScratch.pushScratch (N pos : Nat) (layout : Layout) :
    Except FixedSizeScratchError (Nat × Nat) :=
  if alignUp pos layout.align + layout.size ≤ N then
    .ok (alignUp pos layout.align, alignUp pos layout.align + layout.size)
  else .error ⟨layout, N - pos⟩

/-- Modelled from the spec: lookup in rkyv's `SharedSerializeMap` (a map
from value identity to first-written offset), as used by
`get_shared_ptr`. -/
def sharedGet (m : List (Nat × Nat)) (p : Nat) : Option Nat :=
  (m.find? (fun q => q.1 == p)).map (fun q => q.2)

/-- Modelled from the spec: rkyv's `SharedSerializeMap::add_shared_ptr` is
insert-if-absent — registering an identity that is already present is a
`DuplicateSharedPointer` error and the map is not changed. -/
def sharedAdd (m : List (Nat × Nat)) (p pos : Nat) :
    Except DuplicateSharedPointer (List (Nat × Nat)) :=
  match sharedGet m p with
  | some _ => .error ⟨p⟩
  | none => .ok ((p, pos) :: m)

/-- Embedding of `BelliniSerializer<N, S>` from `src/serializer.rs`: inner
serializer state, scratch bump position, and the shared registry. -/
structure BelliniSerializer (σ : Type) (N : Nat) where
  serializer : σ
  scratchPos : Nat
  shared : List (Nat × Nat)

/-- Embedding of `BelliniSerializer::new` from `src/serializer.rs`: fresh scratch and
fresh shared registry around the given inner serializer. -/
def BelliniSerializer.new (N : Nat) (inner : σ) : BelliniSerializer σ N :=
  { serializer := inner, scratchPos := 0, shared := [] }

/-- Embedding of `Serializer::write` for `BelliniSerializer` in `src/serializer.rs`:
delegates to the inner serializer, mapping its error to
`SerializerError`. -/
def BelliniSerializer.write (ε : Type) (innerWrite : σ → List Nat → Except ε σ)
    (s : BelliniSerializer σ N) (bytes : List Nat) :
    Except (BelliniSerializerError ε) (BelliniSerializer σ N) :=
  match innerWrite s.serializer bytes with
  | .ok s2 => .ok { s with serializer := s2 }
  | .error e => .error (.serializerError e)

/-- Embedding of `Serializer::pad` for `BelliniSerializer` in `src/serializer.rs`: same
delegation pattern as `write`. -/
def BelliniSerializer.pad (ε : Type) (innerPad : σ → Nat → Except ε σ)
    (s : BelliniSerializer σ N) (padding : Nat) :
    Except (BelliniSerializerError ε) (BelliniSerializer σ N) :=
  match innerPad s.serializer padding with
  | .ok s2 => .ok { s with serializer := s2 }
  | .error e => .error (.serializerError e)

/-- Embedding of `ScratchSpace::push_scratch` for `BelliniSerializer` in
`src/serializer.rs`: delegates to the stack scratch, mapping its error to
`ScratchSpaceError`. Returns the allocated range and the new state. -/
def BelliniSerializer.pushScratch (ε : Type) (s : BelliniSerializer σ N)
    (layout : Layout) :
    Except (BelliniSerializerError ε) ((Nat × Nat) × BelliniSerializer σ N) :=
  match StackScratch.pushScratch N s.scratchPos layout with
  | .ok (start, newPos) => .ok ((start, start + layout.size), { s with scratchPos := newPos })
  | .error e => .error (.scratchSpaceError e)

/-- Embedding of `SharedSerializeRegistry::get_shared_ptr` for `BelliniSerializer` in
`src/serializer.rs`: delegates to the shared registry. -/
def BelliniSerializer.getSharedPtr (s : BelliniSerializer σ N) (p : Nat) : Option Nat :=
  sharedGet s.shared p

/-- Embedding of `SharedSerializeRegistry::add_shared_ptr` for `BelliniSerializer` in
`src/serializer.rs`: delegates to the shared registry, mapping its error to
`SharedError`. -/
def BelliniSerializer.addSharedPtr (ε : Type) (s : BelliniSerializer σ N)
    (p pos : Nat) :
    Except (BelliniSerializerError ε) (BelliniSerializer σ N) :=
  match sharedAdd s.shared p pos with
  | .ok m2 => .ok { s with shared := m2 }
  | .error e => .error (.sharedError e)

/-- A sequence of later `add_shared_ptr` attempts: a successful add updates
the registry, a failed one leaves the serializer state as it was. -/
def applyAdds (ε : Type) (s : BelliniSerializer σ N) (ops : List (Nat × Nat)) :
    BelliniSerializer σ N :=
  ops.foldl
    (fun s op =>
      match BelliniSerializer.addSharedPtr ε s op.1 op.2 with
      | .ok s2 => s2
      | .error _ => s) s

/-! ## Write serializer (`src/serializer.rs`, `BelliniWriteSerializer`)

Wraps an arbitrary sequential sink and tracks the write position. The sink
is an abstract state `σ` with a fallible `write_all` step; on failure the
`?` operator returns before `self.pos` is touched. -/

/-- Embedding of `BelliniWriteSerializer<W>` from `src/serializer.rs`: the
inner sink state and the tracked position. -/
structure BelliniWriteSerializer (σ : Type) where
  inner : σ
  pos : Nat

/-- Embedding of `BelliniWriteSerializer::new` from `src/serializer.rs`: wraps the sink
with position 0. -/
def BelliniWriteSerializer.new (inner : σ) : BelliniWriteSerializer σ :=
  { inner := inner, pos := 0 }

/-- Embedding of `Serializer::write` for `BelliniWriteSerializer` in `src/serializer.rs`:
forwards the bytes to the sink's `write_all` and, on success, advances
`pos` by exactly the byte count; on failure `pos` is left unchanged. The
boolean reports success. -/
def BelliniWriteSerializer.write (writeAll : σ → List Nat → Option σ)
    (w : BelliniWriteSerializer σ) (bytes : List Nat) :
    BelliniWriteSerializer σ × Bool :=
  match writeAll w.inner bytes with
  | some s2 => ({ inner := s2, pos := w.pos + bytes.length }, true)
  | none => (w, false)

/-- A sequence of write attempts, each continuing from the state the
previous one left behind. -/
def processWrites (writeAll : σ → List Nat → Option σ)
    (w : BelliniWriteSerializer σ) (bss : List (List Nat)) :
    BelliniWriteSerializer σ :=
  bss.foldl (fun w bs => (BelliniWriteSerializer.write writeAll w bs).1) w

/-- Total byte count of the successful writes in a sequence of attempts. -/
def writtenBytes (writeAll : σ → List Nat → Option σ) :
    BelliniWriteSerializer σ → List (List Nat) → Nat
  | _, [] => 0
  | w, bs :: rest =>
    if (BelliniWriteSerializer.write writeAll w bs).2 then
      bs.length + writtenBytes writeAll (BelliniWriteSerializer.write writeAll w bs).1 rest
    else
      writtenBytes writeAll (BelliniWriteSerializer.write writeAll w bs).1 rest

/-! ## Encoder / validated decoder (modelled from the spec)

`src/encoder.rs` and `src/decoder.rs` are re-exported by `src/lib.rs` but
their sources are not part of this repository, so the frame codec is
modelled from the spec: the Encoder serializes one Document into data
bytes and appends an 8-byte footer of 4-byte little-endian checksum
followed by 4-byte little-endian length (§4.3, §6); the validated decoder
(`CheckedArchiver`) walks the whole structure, rejecting malformed tags,
inconsistent length claims and trailing garbage (§4.4). The spec leaves
the inner rkyv layout and the checksum algorithm open (§9), so a concrete
tag-and-length-prefix layout and a sum-mod-2³² checksum are chosen and
documented here. -/

/-- Little-endian encoding of `n` into `k` bytes, low byte first. -/
def natLE : Nat → Nat → List Nat
  | 0, _ => []
  | k + 1, n => n % 256 :: natLE k (n / 256)

/-- Little-endian byte list to natural. -/
def leNat : List Nat → Nat
  | [] => 0
  | b :: bs => b + 256 * leNat bs

/-- Eight-byte little-endian encoding of a u64. -/
def encU64 (n : Nat) : List Nat :=
  natLE 8 n

/-- Reads 8 little-endian bytes as a u64, returning the rest. -/
def readU64 (bs : List Nat) : Option (Nat × List Nat) :=
  if 8 ≤ bs.length then some (leNat (bs.take 8), bs.drop 8) else none

/-- i64 encoded as the two's-complement u64 pattern. -/
def encI64 (i : Int) : List Nat :=
  encU64 (i % (2 ^ 64 : Int)).toNat

/-- Two's-complement interpretation of a u64 pattern. -/
def i64OfPattern (n : Nat) : Int :=
  if n < 2 ^ 63 then (n : Int) else (n : Int) - 2 ^ 64

/-- Reads an i64 (8 little-endian bytes, two's complement). -/
def readI64 (bs : List Nat) : Option (Int × List Nat) :=
  match readU64 bs with
  | none => none
  | some (n, r) => some (i64OfPattern n, r)

/-- A boolean encoded as one byte, `0` or `1`. -/
def encBool (b : Bool) : List Nat :=
  [if b then 1 else 0]

/-- Reads one validated boolean byte: anything other than `0`/`1` is a
malformed-value decode error. -/
def readBoolByte : List Nat → Option (Bool × List Nat)
  | [] => none
  | b :: rest =>
    if b = 0 then some (false, rest)
    else if b = 1 then some (true, rest)
    else none

/-- A length-prefixed byte run. -/
def encBytesRun (p : List Nat) : List Nat :=
  encU64 p.length ++ p

/-- Reads a length-prefixed byte run, checking the length claim against the
remaining bytes. -/
def readBytesRun (bs : List Nat) : Option (List Nat × List Nat) :=
  match readU64 bs with
  | none => none
  | some (n, rest) =>
    if n ≤ rest.length then some (rest.take n, rest.drop n) else none

/-- Reads a length-prefixed text. -/
def readTextElem (bs : List Nat) : Option (Text × List Nat) :=
  match readBytesRun bs with
  | none => none
  | some (p, r) => some (⟨p⟩, r)

/-- Reads a length-prefixed bytes value. -/
def readBytesElem (bs : List Nat) : Option (Bytes × List Nat) :=
  match readBytesRun bs with
  | none => none
  | some (p, r) => some (⟨p⟩, r)

/-- Reads exactly `n` elements with the given element reader. -/
def readCount (readEl : List Nat → Option (α × List Nat)) :
    Nat → List Nat → Option (List α × List Nat)
  | 0, bs => some ([], bs)
  | n + 1, bs =>
    match readEl bs with
    | none => none
    | some (x, bs2) =>
      match readCount readEl n bs2 with
      | none => none
      | some (xs, bs3) => some (x :: xs, bs3)

/-- A count-prefixed homogeneous run of encoded elements. -/
def encCounted (enc : α → List Nat) (l : List α) : List Nat :=
  encU64 l.length ++ (l.map enc).flatten

/-- Reads a count prefix and then that many elements. -/
def readCounted (readEl : List Nat → Option (α × List Nat)) (bs : List Nat) :
    Option (List α × List Nat) :=
  match readU64 bs with
  | none => none
  | some (n, rest) => readCount readEl n rest

mutual

/-- Modelled from the spec: serialization of one `Value` into
self-delimiting bytes — a tag byte followed by the variant's payload
(scalars as 8-byte little-endian runs, texts/bytes length-prefixed, arrays
count-prefixed, `ArrayDynamic`/`Object` recursively). -/
def encodeValue : Value → List Nat
  | .null => [0]
  | .bool b => 1 :: encBool b
  | .string t => 2 :: encBytesRun t.bytes
  | .bytes b => 3 :: encBytesRun b.bytes
  | .u64 n => 4 :: encU64 n
  | .i64 i => 5 :: encI64 i
  | .f64 n => 6 :: encU64 n
  | .date i => 7 :: encI64 i
  | .arrayBool l => 8 :: encCounted encBool l
  | .arrayString l => 9 :: encCounted (fun t => encBytesRun t.bytes) l
  | .arrayBytes l => 10 :: encCounted (fun b => encBytesRun b.bytes) l
  | .arrayU64 l => 11 :: encCounted encU64 l
  | .arrayI64 l => 12 :: encCounted encI64 l
  | .arrayF64 l => 13 :: encCounted encU64 l
  | .arrayDate l => 14 :: encCounted encI64 l
  | .arrayDynamic l => 15 :: (encU64 l.length ++ encodeValueList l)
  | .object l => 16 :: (encU64 l.length ++ encodeFieldList l)

/-- Concatenated encodings of a dynamic array's elements. -/
def encodeValueList : List Value → List Nat
  | [] => []
  | v :: vs => encodeValue v ++ encodeValueList vs

/-- Concatenated encodings of an object's fields: length-prefixed key then
value. -/
def encodeFieldList : List (Text × Value) → List Nat
  | [] => []
  | kv :: rest => (encBytesRun kv.1.bytes ++ encodeValue kv.2) ++ encodeFieldList rest

end



/-- Reads one `key: value` field with the given value reader. -/
def readFieldWith (elemDec : List Nat → Option (Value × List Nat)) (cs : List Nat) :
    Option ((Text × Value) × List Nat) :=
  match readBytesRun cs with
  | none => none
  | some (k, r) =>
    match elemDec r with
    | none => none
    | some (v, r2) => some ((⟨k⟩, v), r2)

/-- One layer of the validated value decoder: dispatch on the tag byte,
rejecting unknown tags, and delegate nested values to `elemDec`. -/
def decodeValueBody (elemDec : List Nat → Option (Value × List Nat)) :
    List Nat → Option (Value × List Nat)
  | [] => none
  | tag :: cs =>
    if tag = 0 then some (.null, cs)
    else if tag = 1 then
      match readBoolByte cs with
      | none => none
      | some (b, r) => some (.bool b, r)
    else if tag = 2 then
      match readBytesRun cs with
      | none => none
      | some (p, r) => some (.string ⟨p⟩, r)
    else if tag = 3 then
      match readBytesRun cs with
      | none => none
      | some (p, r) => some (.bytes ⟨p⟩, r)
    else if tag = 4 then
      match readU64 cs with
      | none => none
      | some (n, r) => some (.u64 n, r)
    else if tag = 5 then
      match readI64 cs with
      | none => none
      | some (i, r) => some (.i64 i, r)
    else if tag = 6 then
      match readU64 cs with
      | none => none
      | some (n, r) => some (.f64 n, r)
    else if tag = 7 then
      match readI64 cs with
      | none => none
      | some (i, r) => some (.date i, r)
    else if tag = 8 then
      match readCounted readBoolByte cs with
      | none => none
      | some (l, r) => some (.arrayBool l, r)
    else if tag = 9 then
      match readCounted readTextElem cs with
      | none => none
      | some (l, r) => some (.arrayString l, r)
    else if tag = 10 then
      match readCounted readBytesElem cs with
      | none => none
      | some (l, r) => some (.arrayBytes l, r)
    else if tag = 11 then
      match readCounted readU64 cs with
      | none => none
      | some (l, r) => some (.arrayU64 l, r)
    else if tag = 12 then
      match readCounted readI64 cs with
      | none => none
      | some (l, r) => some (.arrayI64 l, r)
    else if tag = 13 then
      match readCounted readU64 cs with
      | none => none
      | some (l, r) => some (.arrayF64 l, r)
    else if tag = 14 then
      match readCounted readI64 cs with
      | none => none
      | some (l, r) => some (.arrayDate l, r)
    else if tag = 15 then
      match readCounted elemDec cs with
      | none => none
      | some (l, r) => some (.arrayDynamic l, r)
    else if tag = 16 then
      match readCounted (readFieldWith elemDec) cs with
      | none => none
      | some (l, r) => some (.object l, r)
    else none

/-- Modelled from the spec: the validated value decoder — fuel-indexed so
each nesting level consumes one unit; fuel exhaustion rejects (a value at
depth `d` needs fuel at least `d`, and the caller supplies the byte count,
which always suffices for values the encoder produced). -/
def decodeValue : Nat → List Nat → Option (Value × List Nat)
  | 0 => fun _ => none
  | fuel + 1 => decodeValueBody (decodeValue fuel)

mutual

/-- Nesting depth of a value, 1 for leaves. -/
def vdepth : Value → Nat
  | .arrayDynamic l => vdepthList l + 1
  | .object l => vdepthFields l + 1
  | _ => 1

/-- Maximum nesting depth over a dynamic array's elements. -/
def vdepthList : List Value → Nat
  | [] => 0
  | v :: vs => max (vdepth v) (vdepthList vs)

/-- Maximum nesting depth over an object's field values. -/
def vdepthFields : List (Text × Value) → Nat
  | [] => 0
  | kv :: rest => max (vdepth kv.2) (vdepthFields rest)

end



mutual

/-- Machine-range well-formedness of a value, the invariants the Rust types
carry for free: u64/f64 patterns below 2⁶⁴, i64/date in i64 range, and all
vector lengths below 2⁶⁴. -/
def wfValue : Value → Bool
  | .null => true
  | .bool _ => true
  | .string t => decide (t.bytes.length < 2 ^ 64)
  | .bytes b => decide (b.bytes.length < 2 ^ 64)
  | .u64 n => decide (n < 2 ^ 64)
  | .i64 i => decide (-(2 ^ 63) ≤ i ∧ i < 2 ^ 63)
  | .f64 n => decide (n < 2 ^ 64)
  | .date i => decide (-(2 ^ 63) ≤ i ∧ i < 2 ^ 63)
  | .arrayBool l => decide (l.length < 2 ^ 64)
  | .arrayString l =>
      decide (l.length < 2 ^ 64) && l.all (fun t => decide (t.bytes.length < 2 ^ 64))
  | .arrayBytes l =>
      decide (l.length < 2 ^ 64) && l.all (fun b => decide (b.bytes.length < 2 ^ 64))
  | .arrayU64 l => decide (l.length < 2 ^ 64) && l.all (fun n => decide (n < 2 ^ 64))
  | .arrayI64 l =>
      decide (l.length < 2 ^ 64) && l.all (fun i => decide (-(2 ^ 63) ≤ i ∧ i < 2 ^ 63))
  | .arrayF64 l => decide (l.length < 2 ^ 64) && l.all (fun n => decide (n < 2 ^ 64))
  | .arrayDate l =>
      decide (l.length < 2 ^ 64) && l.all (fun i => decide (-(2 ^ 63) ≤ i ∧ i < 2 ^ 63))
  | .arrayDynamic l => decide (l.length < 2 ^ 64) && wfValueList l
  | .object l => decide (l.length < 2 ^ 64) && wfFieldList l

/-- Well-formedness of every element of a dynamic array. -/
def wfValueList : List Value → Bool
  | [] => true
  | v :: vs => wfValue v && wfValueList vs

/-- Well-formedness of every field: key length in range and value
well-formed. -/
def wfFieldList : List (Text × Value) → Bool
  | [] => true
  | kv :: rest => (decide (kv.1.bytes.length < 2 ^ 64) && wfValue kv.2) && wfFieldList rest

end



/-- Machine-range well-formedness of a whole document. -/
def wfDocument (d : Document) : Bool :=
  decide (d.id < 2 ^ 64) && decide (d.fields.length < 2 ^ 64) && wfFieldList d.fields

/-- Modelled from the spec: the data bytes of one encoded Document — id,
field count, then the fields in order. -/
def documentData (d : Document) : List Nat :=
  encU64 d.id ++ encU64 d.fields.length ++ encodeFieldList d.fields

/-- Modelled from the spec: the 32-bit checksum over the data bytes. The
spec leaves the algorithm open (§9); byte-sum mod 2³² is the documented
choice of this model. -/
def checksum (data : List Nat) : Nat :=
  data.sum % 2 ^ 32

/-- Modelled from the spec (§4.3, §6): one frame — the data bytes followed
by the 8-byte footer `[checksum: u32 LE][length: u32 LE]`. -/
def encodeFrame (d : Document) : List Nat :=
  documentData d ++ natLE 4 (checksum (documentData d)) ++ natLE 4 (documentData d).length

/-- Modelled from the spec: the validated decode of a frame's data bytes
into a Document — id, field count, exactly that many fields, and no
trailing bytes; the byte count itself serves as decoding fuel. -/
def decodeDocumentData (data : List Nat) : Option Document :=
  match readU64 data with
  | none => none
  | some (i, r1) =>
    match readU64 r1 with
    | none => none
    | some (n, r2) =>
      match readCount (readFieldWith (decodeValue data.length)) n r2 with
      | none => none
      | some (fs, r3) => if r3 = [] then some ⟨i, fs⟩ else none

/-- Modelled from the spec: validated decode of one frame — checks the
footer's length claim and checksum over the data bytes, then performs the
validated structural decode. -/
def decodeFrame (frame : List Nat) : Option Document :=
  if 8 ≤ frame.length then
    if leNat ((frame.drop (frame.length - 8)).take 4) =
          checksum (frame.take (frame.length - 8)) ∧
        leNat ((frame.drop (frame.length - 8)).drop 4) =
          (frame.take (frame.length - 8)).length then
      decodeDocumentData (frame.take (frame.length - 8))
    else none
  else none

/-! ## Theorems -/

theorem Document.insertAll_fields (d : Document) (ps : List (Text × Value)) :
    (d.insertAll ps).fields = d.fields ++ ps := by
  induction ps generalizing d with
  | nil => simp [insertAll]
  | cons p ps ih =>
      show ((d.insert p.1 p.2).insertAll ps).fields = _
      rw [ih]
      simp [Document.insert]

theorem forall₂_field_eq_iff (xs ys : List (Text × Value)) :
    List.Forall₂ (fun p q : Text × Value => p.1.bytes = q.1.bytes ∧ p.2 = q.2) xs ys ↔
      xs = ys := by
  induction xs generalizing ys with
  | nil => cases ys <;> simp
  | cons x xs ihx =>
    cases ys with
    | nil => simp
    | cons y ys =>
      simp only [List.forall₂_cons, ihx, List.cons.injEq]
      cases x with
      | mk xk xv =>
        cases y with
        | mk yk yv =>
          cases xk; cases yk
          simp [Prod.ext_iff]

theorem f64Eq_canonical_iff (a b : Nat) (ha : f64Canonical a = true)
    (hb : f64Canonical b = true) : f64Eq a b = true ↔ a = b := by
  simp only [f64Canonical, Bool.and_eq_true, Bool.not_eq_true',
    decide_eq_true_eq] at ha hb
  unfold f64Eq
  rw [if_neg (by simp [ha.1, hb.1])]
  by_cases hc : ((a == 0 || a == 2 ^ 63) && (b == 0 || b == 2 ^ 63)) = true
  · rw [if_pos hc]
    simp only [Bool.and_eq_true, Bool.or_eq_true, beq_iff_eq] at hc
    have ha0 : a = 0 := by
      rcases hc.1 with h | h
      · exact h
      · exact absurd h ha.2
    have hb0 : b = 0 := by
      rcases hc.2 with h | h
      · exact h
      · exact absurd h hb.2
    subst ha0
    subst hb0
    simp
  · rw [if_neg hc]
    simp

theorem f64ListEq_canonical_iff (l1 l2 : List Nat)
    (h1 : l1.all f64Canonical = true) (h2 : l2.all f64Canonical = true) :
    f64ListEq l1 l2 = true ↔ l1 = l2 := by
  induction l1 generalizing l2 with
  | nil => cases l2 <;> simp [f64ListEq]
  | cons x xs ih =>
    cases l2 with
    | nil => simp [f64ListEq]
    | cons y ys =>
      simp only [List.all_cons, Bool.and_eq_true] at h1 h2
      simp only [f64ListEq, Bool.and_eq_true, List.cons.injEq]
      rw [f64Eq_canonical_iff x y h1.1 h2.1, ih ys h1.2 h2.2]

theorem canonicalValueList_mem {l : List Value} (h : canonicalValueList l = true) :
    ∀ x ∈ l, canonicalValue x = true := by
  induction l with
  | nil => intro x hx; cases hx
  | cons v vs ih =>
    intro x hx
    rw [show canonicalValueList (v :: vs) = (canonicalValue v && canonicalValueList vs)
      from rfl] at h
    simp only [Bool.and_eq_true] at h
    cases hx with
    | head => exact h.1
    | tail _ hm => exact ih h.2 x hm

theorem canonicalFieldList_mem {l : List (Text × Value)}
    (h : canonicalFieldList l = true) : ∀ kv ∈ l, canonicalValue kv.2 = true := by
  induction l with
  | nil => intro kv hkv; cases hkv
  | cons p rest ih =>
    intro kv hkv
    rw [show canonicalFieldList (p :: rest) = (canonicalValue p.2 && canonicalFieldList rest)
      from rfl] at h
    simp only [Bool.and_eq_true] at h
    cases hkv with
    | head => exact h.1
    | tail _ hm => exact ih h.2 kv hm

theorem beqValue_canonical_iff : ∀ a b : Value, canonicalValue a = true →
    canonicalValue b = true → (beqValue a b = true ↔ a = b) := by
  have Hlist : ∀ (xs ys : List Value),
      (∀ x ∈ xs, ∀ y ∈ ys, (beqValue x y = true ↔ x = y)) →
      (beqValueList xs ys = true ↔ xs = ys) := by
    intro xs
    induction xs with
    | nil => intro ys _; cases ys <;> simp [beqValueList]
    | cons x xs ihx =>
      intro ys H
      cases ys with
      | nil => simp [beqValueList]
      | cons y ys =>
        simp only [beqValueList, Bool.and_eq_true, List.cons.injEq]
        rw [H x (by simp) y (by simp),
          ihx ys (fun z hz w hw => H z (by simp [hz]) w (by simp [hw]))]
  have Hfield : ∀ (xs ys : List (Text × Value)),
      (∀ x ∈ xs, ∀ y ∈ ys, (beqValue x.2 y.2 = true ↔ x.2 = y.2)) →
      (beqFieldList xs ys = true ↔ xs = ys) := by
    intro xs
    induction xs with
    | nil => intro ys _; cases ys <;> simp [beqFieldList]
    | cons x xs ihx =>
      intro ys H
      cases ys with
      | nil => simp [beqFieldList]
      | cons y ys =>
        simp only [beqFieldList, Bool.and_eq_true, List.cons.injEq]
        rw [H x (by simp) y (by simp),
          ihx ys (fun z hz w hw => H z (by simp [hz]) w (by simp [hw]))]
        cases x with
        | mk xk xv =>
          cases y with
          | mk yk yv =>
            cases xk; cases yk
            simp [Prod.ext_iff, and_assoc]
  have Hmain : ∀ n (a : Value), sizeOf a ≤ n → ∀ b, canonicalValue a = true →
      canonicalValue b = true → (beqValue a b = true ↔ a = b) := by
    intro n
    induction n using Nat.strong_induction_on with
    | _ n ih =>
      intro a ha b hca hcb
      cases a <;> cases b <;>
        simp only [beqValue, beq_iff_eq, Bool.false_eq_true, false_iff, reduceCtorEq,
          not_false_eq_true, Value.bool.injEq, Value.string.injEq, Value.bytes.injEq,
          Value.u64.injEq, Value.i64.injEq, Value.f64.injEq, Value.date.injEq,
          Value.arrayBool.injEq, Value.arrayString.injEq, Value.arrayBytes.injEq,
          Value.arrayU64.injEq, Value.arrayI64.injEq, Value.arrayF64.injEq,
          Value.arrayDate.injEq, Value.arrayDynamic.injEq, Value.object.injEq]
      case string.string t u => cases t; cases u; simp
      case bytes.bytes t u => cases t; cases u; simp
      case f64.f64 x y =>
        exact f64Eq_canonical_iff x y (by simpa [canonicalValue] using hca)
          (by simpa [canonicalValue] using hcb)
      case arrayF64.arrayF64 t u =>
        exact f64ListEq_canonical_iff t u (by simpa [canonicalValue] using hca)
          (by simpa [canonicalValue] using hcb)
      case arrayString.arrayString t u =>
        constructor
        · intro h
          exact List.map_injective_iff.mpr
            (fun x y hxy => by cases x; cases y; simpa using hxy) h
        · intro h; rw [h]
      case arrayBytes.arrayBytes t u =>
        constructor
        · intro h
          exact List.map_injective_iff.mpr
            (fun x y hxy => by cases x; cases y; simpa using hxy) h
        · intro h; rw [h]
      case arrayDynamic.arrayDynamic xs ys =>
        have hcxs : canonicalValueList xs = true := by simpa [canonicalValue] using hca
        have hcys : canonicalValueList ys = true := by simpa [canonicalValue] using hcb
        refine Hlist xs ys (fun x hx y hy => ?_)
        refine ih (sizeOf x) ?_ x (le_refl _) y
          (canonicalValueList_mem hcxs x hx) (canonicalValueList_mem hcys y hy)
        have h1 : sizeOf x < sizeOf xs := List.sizeOf_lt_of_mem hx
        have h2 : sizeOf (Value.arrayDynamic xs) ≤ n := ha
        simp only [Value.arrayDynamic.sizeOf_spec] at h2
        omega
      case object.object xs ys =>
        have hcxs : canonicalFieldList xs = true := by simpa [canonicalValue] using hca
        have hcys : canonicalFieldList ys = true := by simpa [canonicalValue] using hcb
        refine Hfield xs ys (fun x hx y hy => ?_)
        refine ih (sizeOf x.2) ?_ x.2 (le_refl _) y.2
          (canonicalFieldList_mem hcxs x hx) (canonicalFieldList_mem hcys y hy)
        have h1 : sizeOf x < sizeOf xs := List.sizeOf_lt_of_mem hx
        have h2 : sizeOf (Value.object xs) ≤ n := ha
        have h3 : sizeOf x.2 < sizeOf x := by
          cases x; simp
        simp only [Value.object.sizeOf_spec] at h2
        omega
  intro a b hca hcb
  exact Hmain (sizeOf a) a (le_refl _) b hca hcb

theorem beqFieldList_canonical_iff (xs ys : List (Text × Value))
    (hx : canonicalFieldList xs = true) (hy : canonicalFieldList ys = true) :
    beqFieldList xs ys = true ↔ xs = ys := by
  induction xs generalizing ys with
  | nil => cases ys <;> simp [beqFieldList]
  | cons x xs ihx =>
    cases ys with
    | nil => simp [beqFieldList]
    | cons y ys =>
      rw [show canonicalFieldList (x :: xs) = (canonicalValue x.2 && canonicalFieldList xs)
        from rfl] at hx
      rw [show canonicalFieldList (y :: ys) = (canonicalValue y.2 && canonicalFieldList ys)
        from rfl] at hy
      simp only [Bool.and_eq_true] at hx hy
      simp only [beqFieldList, Bool.and_eq_true, List.cons.injEq]
      rw [beqValue_canonical_iff x.2 y.2 hx.1 hy.1, ihx ys hx.2 hy.2]
      cases x with
      | mk xk xv =>
        cases y with
        | mk yk yv =>
          cases xk; cases yk
          simp [Prod.ext_iff, and_assoc]

/-- C2: for every Document `d` and every finite sequence of `insert(key, value)`
calls on `d`, `fields` returns exactly the inserted pairs in insertion order;
duplicate keys are kept, never merged, rejected, or reordered (the second
conjunct shows insertion is unconditional appending, whatever the keys). -/
theorem insert_sequence_fields_exact :
    (∀ (capacity : Nat) (ps : List (Text × Value)),
      ((Document.withCapacity capacity).insertAll ps).fields = ps) ∧
    (∀ (d : Document) (ps : List (Text × Value)),
      (d.insertAll ps).fields = d.fields ++ ps) := by
  constructor
  · intro c ps
    rw [Document.insertAll_fields]
    rfl
  · exact Document.insertAll_fields

/-- C6 counterexample: the derived `PartialEq` on `Value::F64(f64)` uses IEEE
`f64::eq`, so the claimed iff fails on the real code in both directions — a
document holding a NaN payload is unequal to itself although its id and field
sequence are pair-wise identical, and two documents holding `+0.0` and `-0.0`
have different payload bytes yet compare equal. -/
theorem document_equality_not_structural :
    beqDocument (Document.mk 0 [(⟨[97]⟩, .f64 (2047 * 2 ^ 52 + 2 ^ 51))])
        (Document.mk 0 [(⟨[97]⟩, .f64 (2047 * 2 ^ 52 + 2 ^ 51))]) = false ∧
    List.Forall₂ (fun p q : Text × Value => p.1.bytes = q.1.bytes ∧ p.2 = q.2)
      (Document.mk 0 [(⟨[97]⟩, .f64 (2047 * 2 ^ 52 + 2 ^ 51))]).fields
      (Document.mk 0 [(⟨[97]⟩, .f64 (2047 * 2 ^ 52 + 2 ^ 51))]).fields ∧
    beqDocument (Document.mk 0 [(⟨[97]⟩, .f64 0)])
        (Document.mk 0 [(⟨[97]⟩, .f64 (2 ^ 63))]) = true ∧
    (Document.mk 0 [(⟨[97]⟩, .f64 0)]).fields ≠
      (Document.mk 0 [(⟨[97]⟩, .f64 (2 ^ 63))]).fields := by
  refine ⟨by decide, ?_, by decide, by decide⟩
  exact List.Forall₂.cons ⟨rfl, rfl⟩ List.Forall₂.nil

/-- C6 (amended): for documents whose f64 payloads are canonical — no NaN and
no negative zero — equality is structural: the documents are equal iff their
ids are equal and their field sequences are pair-wise equal in order with
byte-equal keys, and such documents whose field sequences differ (e.g. the
same fields in a different order) compare unequal. In general the derived
`PartialEq` follows IEEE f64 semantics on float payloads. -/
theorem document_equality_structural_canonical :
    (∀ d e : Document, canonicalDocument d = true → canonicalDocument e = true →
      (beqDocument d e = true ↔
        (d.id = e.id ∧
          List.Forall₂ (fun p q : Text × Value =>
            p.1.bytes = q.1.bytes ∧ p.2 = q.2) d.fields e.fields))) ∧
    (∀ d e : Document, canonicalDocument d = true → canonicalDocument e = true →
      d.fields ≠ e.fields → beqDocument d e = false) := by
  have hmain : ∀ d e : Document,
      canonicalDocument d = true → canonicalDocument e = true →
      (beqDocument d e = true ↔
        (d.id = e.id ∧
          List.Forall₂ (fun p q : Text × Value =>
            p.1.bytes = q.1.bytes ∧ p.2 = q.2) d.fields e.fields)) := by
    intro d e hd he
    rw [show beqDocument d e = (d.id == e.id && beqFieldList d.fields e.fields)
      from rfl]
    simp only [Bool.and_eq_true, beq_iff_eq]
    rw [beqFieldList_canonical_iff d.fields e.fields hd he, forall₂_field_eq_iff]
  refine ⟨hmain, fun d e hd he hne => ?_⟩
  by_contra h
  have h2 : beqDocument d e = true := by
    cases h3 : beqDocument d e
    · exact absurd h3 h
    · rfl
  exact hne (forall₂_field_eq_iff d.fields e.fields |>.mp ((hmain d e hd he).mp h2).2)

/-- C6 witness: two canonical documents with the same fields in a different
order compare unequal. -/
theorem document_equality_structural_canonical_witness :
    canonicalDocument (Document.mk 0 [(⟨[97]⟩, .u64 1), (⟨[98]⟩, .u64 2)]) = true ∧
    canonicalDocument (Document.mk 0 [(⟨[98]⟩, .u64 2), (⟨[97]⟩, .u64 1)]) = true ∧
    (Document.mk 0 [(⟨[97]⟩, .u64 1), (⟨[98]⟩, .u64 2)]).fields ≠
        (Document.mk 0 [(⟨[98]⟩, .u64 2), (⟨[97]⟩, .u64 1)]).fields ∧
    beqDocument (Document.mk 0 [(⟨[97]⟩, .u64 1), (⟨[98]⟩, .u64 2)])
        (Document.mk 0 [(⟨[98]⟩, .u64 2), (⟨[97]⟩, .u64 1)]) = false :=
  ⟨by decide, by decide, by decide,
    document_equality_structural_canonical.2
      (Document.mk 0 [(⟨[97]⟩, .u64 1), (⟨[98]⟩, .u64 2)])
      (Document.mk 0 [(⟨[98]⟩, .u64 2), (⟨[97]⟩, .u64 1)])
      (by decide) (by decide) (by decide)⟩

/-- C8: every Document constructed without an explicit id — `with_capacity`,
`From<Vec<(Text, Value)>>`, or `Default` — has id 0, and after any sequence of
`set_id` calls the id is exactly the last value passed. -/
theorem document_id_zero_default_setId_last :
    (∀ capacity, (Document.withCapacity capacity).id = 0) ∧
    (∀ l, (Document.fromFields l).id = 0) ∧
    Document.defaultDoc.id = 0 ∧
    (∀ (d : Document) (vs : List Nat) (v : Nat),
      ((vs ++ [v]).foldl Document.setId d).id = v) := by
  refine ⟨fun _ => rfl, fun _ => rfl, rfl, fun d vs v => ?_⟩
  rw [List.foldl_append]
  rfl

/-- C10: `set_id` changes only the id component and `insert` changes only the
field sequence; neither mutates the component it is not about. -/
theorem setId_insert_frame_conditions :
    ∀ (d : Document) (v : Nat) (k : Text) (val : Value),
      (d.setId v).fields = d.fields ∧ (d.insert k val).id = d.id :=
  fun _ _ _ _ => ⟨rfl, rfl⟩

theorem enumFrom_succ_map (l : List (List Char)) (n : Nat) :
    ((l.enumFrom (n + 1)).map (fun p => if p.1 = 0 then p.2 else ", ".toList ++ p.2)) =
      l.map (fun s => ", ".toList ++ s) := by
  induction l generalizing n with
  | nil => rfl
  | cons x xs ih =>
    simp only [List.enumFrom, List.map_cons, if_neg (Nat.succ_ne_zero n)]
    rw [ih]

theorem commaJoin_aux (ps : List (List Char)) :
    ∀ p, p ++ (ps.map (fun s => ", ".toList ++ s)).flatten = commaJoin (p :: ps) := by
  induction ps with
  | nil => intro p; simp [commaJoin]
  | cons q qs ih =>
    intro p
    rw [show commaJoin (p :: q :: qs) = p ++ ", ".toList ++ commaJoin (q :: qs) from rfl]
    rw [← ih q]
    simp [List.append_assoc]

theorem renderSeq_eq_commaJoin (parts : List (List Char)) :
    renderSeq parts = commaJoin parts := by
  cases parts with
  | nil => rfl
  | cons p ps =>
    rw [show renderSeq (p :: ps)
        = p ++ ((ps.enumFrom 1).map
            (fun q => if q.1 = 0 then q.2 else ", ".toList ++ q.2)).flatten from rfl]
    rw [show (1 : Nat) = 0 + 1 from rfl, enumFrom_succ_map]
    exact commaJoin_aux ps p

theorem debugValueList_eq_map (l : List Value) :
    debugValueList l = l.map debugValue := by
  induction l with
  | nil => rfl
  | cons v vs ih => simp [debugValueList, ih]

theorem debugFieldList_eq_map (l : List (Text × Value)) :
    debugFieldList l = l.map (fun kv => debugTextR kv.1 ++ ": ".toList ++ debugValue kv.2) := by
  induction l with
  | nil => rfl
  | cons kv rest ih => simp [debugFieldList, ih]

/-- C7 counterexample: `Display for Value` renders merely the type name —
two distinct values render identically, and the rendering is exactly
`as_type`, refuting "a representation of its contents, not merely its type
name" for the value rendering cited by the claim. -/
theorem value_display_not_structural :
    displayValue (.bool true) = displayValue (.bool false) ∧
      Value.bool true ≠ Value.bool false ∧
      displayValue (.bool true) = (Value.bool true).asType := by
  refine ⟨rfl, ?_, rfl⟩
  decide

/-- C7 (amended): `Display` on an owned Value renders only the type name,
while the `Debug` rendering of archived values is structural: element-wise
(comma-joined element renderings) for dynamic arrays and pair-wise
(`key: value`, comma-joined, in field order) for objects. -/
theorem value_rendering_structural :
    (∀ v : Value, displayValue v = v.asType) ∧
    (∀ l : List Value,
      debugValue (.arrayDynamic l) = '[' :: commaJoin (l.map debugValue) ++ [']']) ∧
    (∀ l : List (Text × Value),
      debugValue (.object l) =
        Char.ofNat 123 ::
          commaJoin (l.map (fun kv => debugTextR kv.1 ++ ": ".toList ++ debugValue kv.2)) ++
          [Char.ofNat 125]) := by
  refine ⟨fun _ => rfl, fun l => ?_, fun l => ?_⟩
  · rw [show debugValue (.arrayDynamic l) = '[' :: renderSeq (debugValueList l) ++ [']'] from rfl]
    rw [debugValueList_eq_map, renderSeq_eq_commaJoin]
  · rw [show debugValue (.object l)
        = Char.ofNat 123 :: renderSeq (debugFieldList l) ++ [Char.ofNat 125] from rfl]
    rw [debugFieldList_eq_map, renderSeq_eq_commaJoin]

theorem applyAdds_preserves (ε : Type) {σ : Type} {N : Nat} (p pos : Nat) :
    ∀ (ops : List (Nat × Nat)) (t : BelliniSerializer σ N),
      t.getSharedPtr p = some pos →
      (applyAdds ε t ops).getSharedPtr p = some pos := by
  intro ops
  induction ops with
  | nil => intro t h; exact h
  | cons op rest ih =>
    intro t h
    simp only [applyAdds, List.foldl_cons]
    cases hadd : BelliniSerializer.addSharedPtr ε t op.1 op.2 with
    | error e => exact ih t h
    | ok s3 =>
      refine ih s3 ?_
      unfold BelliniSerializer.addSharedPtr at hadd
      cases hsa : sharedAdd t.shared op.1 op.2 with
      | error e => rw [hsa] at hadd; exact absurd hadd (by simp)
      | ok m2 =>
        rw [hsa] at hadd
        simp only [Except.ok.injEq] at hadd
        unfold sharedAdd at hsa
        cases hget : sharedGet t.shared op.1 with
        | some q => rw [hget] at hsa; exact absurd hsa (by simp)
        | none =>
          rw [hget] at hsa
          simp only [Except.ok.injEq] at hsa
          have hne : op.1 ≠ p := by
            intro hqp
            rw [hqp] at hget
            have h' : sharedGet t.shared p = some pos := h
            rw [hget] at h'
            exact Option.noConfusion h'
          subst hadd
          subst hsa
          have hb : ((op.1 : Nat) == p) = false := by
            simpa using hne
          simp only [BelliniSerializer.getSharedPtr, sharedGet, List.find?_cons, hb] at h ⊢
          exact h

/-- C3: a scratch request through `BelliniSerializer<N>` whose aligned layout
does not fit in the remaining fixed capacity `N` returns a
`ScratchSpaceError`, and a successful scratch allocation never extends past
`N` — there is no fallback to heap growth. -/
theorem scratch_oversized_request_fails (σ ε : Type) (N : Nat)
    (s : BelliniSerializer σ N) (layout : Layout) :
    (N < alignUp s.scratchPos layout.align + layout.size →
      BelliniSerializer.pushScratch ε s layout =
        .error (.scratchSpaceError ⟨layout, N - s.scratchPos⟩)) ∧
    (∀ alloc s2, BelliniSerializer.pushScratch ε s layout = .ok (alloc, s2) →
      alloc.2 ≤ N ∧ s2.scratchPos ≤ N) := by
  constructor
  · intro h
    unfold BelliniSerializer.pushScratch StackScratch.pushScratch
    rw [if_neg (by omega)]
  · intro alloc s2 h
    unfold BelliniSerializer.pushScratch StackScratch.pushScratch at h
    by_cases hc : alignUp s.scratchPos layout.align + layout.size ≤ N
    · rw [if_pos hc] at h
      simp only [Except.ok.injEq, Prod.mk.injEq] at h
      obtain ⟨h1, h3⟩ := h
      constructor
      · rw [← h1]; exact hc
      · rw [← h3]; exact hc
    · rw [if_neg hc] at h
      exact absurd h (by simp)

/-- C3 witness: with capacity 4, a request of size 8 fails with a
`ScratchSpaceError`, while a request of size 2 succeeds inside the
capacity. -/
theorem scratch_oversized_request_fails_witness :
    (BelliniSerializer.pushScratch (σ := List Nat) (N := 4) Unit ⟨[], 0, []⟩ ⟨8, 1⟩ =
        .error (.scratchSpaceError ⟨⟨8, 1⟩, 4⟩)) ∧
      ((0, 2), (⟨[], 2, []⟩ : BelliniSerializer (List Nat) 4)).1.2 ≤ 4 ∧
        (⟨[], 2, []⟩ : BelliniSerializer (List Nat) 4).scratchPos ≤ 4 :=
  ⟨(scratch_oversized_request_fails (List Nat) Unit 4 ⟨[], 0, []⟩ ⟨8, 1⟩).1 (by decide),
    (scratch_oversized_request_fails (List Nat) Unit 4 ⟨[], 0, []⟩ ⟨2, 1⟩).2
      (0, 2) ⟨[], 2, []⟩ rfl⟩

/-- C4: once `add_shared_ptr(p, pos)` succeeds, `get_shared_ptr(p)` returns
`some pos` after any sequence of later add attempts, and any later
`add_shared_ptr(p, pos2)` returns a `SharedError` — the registered offset is
write-once and never overwritten. -/
theorem shared_registry_write_once (σ ε : Type) (N : Nat)
    (s s2 : BelliniSerializer σ N) (p pos : Nat)
    (h : BelliniSerializer.addSharedPtr ε s p pos = .ok s2) :
    s2.getSharedPtr p = some pos ∧
    (∀ ops, (applyAdds ε s2 ops).getSharedPtr p = some pos) ∧
    (∀ ops pos2,
      BelliniSerializer.addSharedPtr ε (applyAdds ε s2 ops) p pos2 =
        .error (.sharedError ⟨p⟩)) := by
  have hget : s2.getSharedPtr p = some pos := by
    unfold BelliniSerializer.addSharedPtr at h
    cases hsa : sharedAdd s.shared p pos with
    | error e => rw [hsa] at h; exact absurd h (by simp)
    | ok m2 =>
      rw [hsa] at h
      simp only [Except.ok.injEq] at h
      unfold sharedAdd at hsa
      cases hg : sharedGet s.shared p with
      | some q => rw [hg] at hsa; exact absurd hsa (by simp)
      | none =>
        rw [hg] at hsa
        simp only [Except.ok.injEq] at hsa
        subst h
        subst hsa
        simp [BelliniSerializer.getSharedPtr, sharedGet, List.find?_cons]
  refine ⟨hget, fun ops => applyAdds_preserves ε p pos ops s2 hget, fun ops pos2 => ?_⟩
  have hg2 : (applyAdds ε s2 ops).getSharedPtr p = some pos :=
    applyAdds_preserves ε p pos ops s2 hget
  unfold BelliniSerializer.addSharedPtr
  have hg3 : sharedGet (applyAdds ε s2 ops).shared p = some pos := hg2
  unfold sharedAdd
  rw [hg3]

/-- C4 witness: register identity 5 at offset 10 in a fresh serializer; after
two later add attempts (one a duplicate of 5), lookup still returns 10 and a
further duplicate add fails with a `SharedError`. -/
theorem shared_registry_write_once_witness :
    (BelliniSerializer.getSharedPtr
        (⟨[], 0, [(5, 10)]⟩ : BelliniSerializer (List Nat) 8) 5 = some 10) ∧
    (∀ ops, (applyAdds Unit (⟨[], 0, [(5, 10)]⟩ : BelliniSerializer (List Nat) 8)
        ops).getSharedPtr 5 = some 10) ∧
    (∀ ops pos2,
      BelliniSerializer.addSharedPtr Unit
          (applyAdds Unit (⟨[], 0, [(5, 10)]⟩ : BelliniSerializer (List Nat) 8) ops) 5 pos2 =
        .error (.sharedError ⟨5⟩)) :=
  shared_registry_write_once (List Nat) Unit 8
    (BelliniSerializer.new 8 []) ⟨[], 0, [(5, 10)]⟩ 5 10 rfl

/-- C5: every failure produced by a `BelliniSerializer` operation is surfaced
as the named variant of its origin — inner sink failures as
`SerializerError`, scratch failures as `ScratchSpaceError`, registry
failures as `SharedError` — and the three variants are pairwise distinct,
never coerced into one another. -/
theorem serializer_error_taxonomy (σ ε : Type) (N : Nat)
    (innerWrite : σ → List Nat → Except ε σ) (innerPad : σ → Nat → Except ε σ) :
    (∀ (s : BelliniSerializer σ N) bytes err,
      BelliniSerializer.write ε innerWrite s bytes = .error err →
        ∃ e, err = .serializerError e ∧ innerWrite s.serializer bytes = .error e) ∧
    (∀ (s : BelliniSerializer σ N) padding err,
      BelliniSerializer.pad ε innerPad s padding = .error err →
        ∃ e, err = .serializerError e ∧ innerPad s.serializer padding = .error e) ∧
    (∀ (s : BelliniSerializer σ N) layout err,
      BelliniSerializer.pushScratch ε s layout = .error err →
        ∃ e, err = .scratchSpaceError e ∧
          StackScratch.pushScratch N s.scratchPos layout = .error e) ∧
    (∀ (s : BelliniSerializer σ N) p pos err,
      BelliniSerializer.addSharedPtr ε s p pos = .error err →
        ∃ e, err = .sharedError e ∧ sharedAdd s.shared p pos = .error e) ∧
    (∀ (e1 : ε) (e2 : FixedSizeScratchError) (e3 : DuplicateSharedPointer),
      BelliniSerializerError.serializerError (ε := ε) e1 ≠ .scratchSpaceError e2 ∧
      BelliniSerializerError.serializerError (ε := ε) e1 ≠ .sharedError e3 ∧
      BelliniSerializerError.scratchSpaceError (ε := ε) e2 ≠ .sharedError e3) := by
  refine ⟨?_, ?_, ?_, ?_, ?_⟩
  · intro s bytes err h
    unfold BelliniSerializer.write at h
    cases hw : innerWrite s.serializer bytes with
    | ok s3 => rw [hw] at h; exact absurd h (by simp)
    | error e =>
      rw [hw] at h
      simp only [Except.error.injEq] at h
      exact ⟨e, h.symm, rfl⟩
  · intro s padding err h
    unfold BelliniSerializer.pad at h
    cases hw : innerPad s.serializer padding with
    | ok s3 => rw [hw] at h; exact absurd h (by simp)
    | error e =>
      rw [hw] at h
      simp only [Except.error.injEq] at h
      exact ⟨e, h.symm, rfl⟩
  · intro s layout err h
    unfold BelliniSerializer.pushScratch at h
    cases hw : StackScratch.pushScratch N s.scratchPos layout with
    | ok r =>
      rw [hw] at h
      cases r with
      | mk a b => exact absurd h (by simp)
    | error e =>
      rw [hw] at h
      simp only [Except.error.injEq] at h
      exact ⟨e, h.symm, rfl⟩
  · intro s p pos err h
    unfold BelliniSerializer.addSharedPtr at h
    cases hw : sharedAdd s.shared p pos with
    | ok m2 => rw [hw] at h; exact absurd h (by simp)
    | error e =>
      rw [hw] at h
      simp only [Except.error.injEq] at h
      exact ⟨e, h.symm, rfl⟩
  · intro e1 e2 e3
    refine ⟨?_, ?_, ?_⟩ <;> intro h <;> exact BelliniSerializerError.noConfusion h

/-- C5 witness: an always-failing inner sink surfaces as `SerializerError`,
an oversized scratch request as `ScratchSpaceError`, and a duplicate
registration as `SharedError`. -/
theorem serializer_error_taxonomy_witness :
    (∃ e, (BelliniSerializerError.serializerError (ε := String) "io") = .serializerError e ∧
      (fun (_ : List Nat) (_ : List Nat) => (.error "io" : Except String (List Nat)))
        ([] : List Nat) [1, 2] = .error e) ∧
    (∃ e, (BelliniSerializerError.scratchSpaceError (ε := String) ⟨⟨8, 1⟩, 4⟩) =
        .scratchSpaceError e ∧
      StackScratch.pushScratch 4 0 ⟨8, 1⟩ = .error e) ∧
    (∃ e, (BelliniSerializerError.sharedError (ε := String) ⟨5⟩) = .sharedError e ∧
      sharedAdd [(5, 10)] 5 11 = .error e) := by
  have h := serializer_error_taxonomy (List Nat) String 4
    (fun _ _ => .error "io") (fun _ _ => .error "io")
  exact ⟨h.1 ⟨[], 0, []⟩ [1, 2] (.serializerError "io") rfl,
    h.2.2.1 ⟨[], 0, []⟩ ⟨8, 1⟩ (.scratchSpaceError ⟨⟨8, 1⟩, 4⟩) rfl,
    h.2.2.2.1 ⟨[], 0, [(5, 10)]⟩ 5 11 (.sharedError ⟨5⟩) rfl⟩

/-- C9: `pos` starts at 0; a successful `write(bytes)` forwards exactly
`bytes` to the sink (no buffering) and advances `pos` by `bytes.len()`; a
failed write leaves `pos` unchanged; over any sequence of writes, `pos`
equals the initial position plus the total number of bytes successfully
written. -/
theorem write_serializer_pos_tracking (σ : Type)
    (writeAll : σ → List Nat → Option σ) :
    (∀ w0 : σ, (BelliniWriteSerializer.new w0).pos = 0) ∧
    (∀ (w : BelliniWriteSerializer σ) (bytes : List Nat) (s2 : σ),
      writeAll w.inner bytes = some s2 →
        BelliniWriteSerializer.write writeAll w bytes =
          ({ inner := s2, pos := w.pos + bytes.length }, true)) ∧
    (∀ (w : BelliniWriteSerializer σ) (bytes : List Nat),
      writeAll w.inner bytes = none →
        (BelliniWriteSerializer.write writeAll w bytes).1.pos = w.pos) ∧
    (∀ (w : BelliniWriteSerializer σ) (bss : List (List Nat)),
      (processWrites writeAll w bss).pos = w.pos + writtenBytes writeAll w bss) := by
  refine ⟨fun _ => rfl, ?_, ?_, ?_⟩
  · intro w bytes s2 h
    unfold BelliniWriteSerializer.write
    rw [h]
  · intro w bytes h
    unfold BelliniWriteSerializer.write
    rw [h]
  · intro w bss
    induction bss generalizing w with
    | nil => simp [processWrites, writtenBytes]
    | cons bs rest ih =>
      show (processWrites writeAll (BelliniWriteSerializer.write writeAll w bs).1 rest).pos = _
      rw [ih]
      cases hw : writeAll w.inner bs with
      | some s2 =>
        have hwr : BelliniWriteSerializer.write writeAll w bs
            = ({ inner := s2, pos := w.pos + bs.length }, true) := by
          unfold BelliniWriteSerializer.write; rw [hw]
        simp only [writtenBytes, hwr, if_true]
        omega
      | none =>
        have hwr : BelliniWriteSerializer.write writeAll w bs = (w, false) := by
          unfold BelliniWriteSerializer.write; rw [hw]
        simp [writtenBytes, hwr]

/-- C9 witness: over a buffer sink that fails once it holds 3 bytes, a
successful write advances `pos` by the byte count, a failed write leaves
`pos` unchanged, and after a mixed sequence `pos` equals the bytes
successfully written. -/
theorem write_serializer_pos_tracking_witness :
    ((BelliniWriteSerializer.new ([] : List Nat)).pos = 0) ∧
    (BelliniWriteSerializer.write
        (fun s bs => if s.length + bs.length ≤ 3 then some (s ++ bs) else none)
        ⟨[], 0⟩ [7, 8] = (⟨[7, 8], 2⟩, true)) ∧
    ((BelliniWriteSerializer.write
        (fun s bs => if s.length + bs.length ≤ 3 then some (s ++ bs) else none)
        ⟨[7, 8], 2⟩ [4, 5, 6]).1.pos = 2) ∧
    ((processWrites
        (fun s bs => if s.length + bs.length ≤ 3 then some (s ++ bs) else none)
        ⟨[], 0⟩ [[7, 8], [4, 5, 6], [9]]).pos = 0 +
      writtenBytes
        (fun s bs => if s.length + bs.length ≤ 3 then some (s ++ bs) else none)
        ⟨[], 0⟩ [[7, 8], [4, 5, 6], [9]]) := by
  have h := write_serializer_pos_tracking (List Nat)
    (fun s bs => if s.length + bs.length ≤ 3 then some (s ++ bs) else none)
  exact ⟨h.1 [], h.2.1 ⟨[], 0⟩ [7, 8] [7, 8] rfl, h.2.2.1 ⟨[7, 8], 2⟩ [4, 5, 6] rfl,
    h.2.2.2 ⟨[], 0⟩ [[7, 8], [4, 5, 6], [9]]⟩

theorem natLE_length (k n : Nat) : (natLE k n).length = k := by
  induction k generalizing n with
  | zero => rfl
  | succ k ih => simp [natLE, ih]

theorem leNat_natLE (k n : Nat) : leNat (natLE k n) = n % 256 ^ k := by
  induction k generalizing n with
  | zero => simp [natLE, leNat, Nat.mod_one]
  | succ k ih =>
    show n % 256 + 256 * leNat (natLE k (n / 256)) = n % 256 ^ (k + 1)
    rw [ih]
    rw [pow_succ, mul_comm (256 ^ k) 256, Nat.mod_mul]

theorem take_append_len {α : Type} {l₁ l₂ : List α} {k : Nat} (h : l₁.length = k) :
    (l₁ ++ l₂).take k = l₁ := by
  subst h
  exact List.take_left _ _

theorem drop_append_len {α : Type} {l₁ l₂ : List α} {k : Nat} (h : l₁.length = k) :
    (l₁ ++ l₂).drop k = l₂ := by
  subst h
  exact List.drop_left _ _

theorem readU64_enc (n : Nat) (h : n < 2 ^ 64) (rest : List Nat) :
    readU64 (encU64 n ++ rest) = some (n, rest) := by
  unfold readU64 encU64
  have hl : (natLE 8 n).length = 8 := natLE_length 8 n
  rw [if_pos (by rw [List.length_append, hl]; omega)]
  rw [take_append_len hl, drop_append_len hl, leNat_natLE]
  rw [Nat.mod_eq_of_lt (by norm_num at h ⊢; omega)]

theorem readI64_enc (i : Int) (h1 : -(2 ^ 63) ≤ i) (h2 : i < 2 ^ 63) (rest : List Nat) :
    readI64 (encI64 i ++ rest) = some (i, rest) := by
  have hm0 : (0 : Int) ≤ i % 2 ^ 64 := Int.emod_nonneg i (by norm_num)
  have hm1 : i % 2 ^ 64 < 2 ^ 64 := Int.emod_lt_of_pos i (by norm_num)
  have ht : ((i % 2 ^ 64).toNat : Int) = i % 2 ^ 64 := Int.toNat_of_nonneg hm0
  have hlt : (i % 2 ^ 64).toNat < 2 ^ 64 := by omega
  have hu := readU64_enc (i % 2 ^ 64).toNat hlt rest
  unfold readI64 encI64
  rw [hu]
  show some (i64OfPattern (i % 2 ^ 64).toNat, rest) = some (i, rest)
  unfold i64OfPattern
  split_ifs with hc <;>
    (simp only [Option.some.injEq, Prod.mk.injEq, and_true]; omega)

theorem readBool_enc (b : Bool) (rest : List Nat) :
    readBoolByte (encBool b ++ rest) = some (b, rest) := by
  cases b <;> rfl

theorem readBytesRun_enc (p : List Nat) (h : p.length < 2 ^ 64) (rest : List Nat) :
    readBytesRun (encBytesRun p ++ rest) = some (p, rest) := by
  unfold readBytesRun encBytesRun
  rw [List.append_assoc, readU64_enc p.length h]
  show (if p.length ≤ (p ++ rest).length then
      some ((p ++ rest).take p.length, (p ++ rest).drop p.length) else none) =
    some (p, rest)
  rw [if_pos (by rw [List.length_append]; omega)]
  rw [List.take_left, List.drop_left]

theorem readCount_enc {α : Type} (enc : α → List Nat)
    (readEl : List Nat → Option (α × List Nat)) (xs : List α) :
    ∀ rest, (∀ x ∈ xs, ∀ r, readEl (enc x ++ r) = some (x, r)) →
      readCount readEl xs.length ((xs.map enc).flatten ++ rest) = some (xs, rest) := by
  induction xs with
  | nil => intro rest _; rfl
  | cons x xs ih =>
    intro rest H
    show readCount readEl (xs.length + 1) _ = _
    unfold readCount
    rw [List.map_cons, List.flatten_cons, List.append_assoc]
    simp only [H x (by simp) ((xs.map enc).flatten ++ rest),
      ih rest (fun z hz r => H z (by simp [hz]) r)]

theorem readCounted_enc {α : Type} (enc : α → List Nat)
    (readEl : List Nat → Option (α × List Nat)) (xs : List α) (rest : List Nat)
    (hlen : xs.length < 2 ^ 64)
    (H : ∀ x ∈ xs, ∀ r, readEl (enc x ++ r) = some (x, r)) :
    readCounted readEl (encCounted enc xs ++ rest) = some (xs, rest) := by
  unfold readCounted encCounted
  rw [List.append_assoc, readU64_enc xs.length hlen]
  exact readCount_enc enc readEl xs rest H

theorem encodeValueList_eq (l : List Value) :
    encodeValueList l = (l.map encodeValue).flatten := by
  induction l with
  | nil => rfl
  | cons v vs ih => simp [encodeValueList, ih]

theorem encodeFieldList_eq (l : List (Text × Value)) :
    encodeFieldList l =
      (l.map (fun kv => encBytesRun kv.1.bytes ++ encodeValue kv.2)).flatten := by
  induction l with
  | nil => rfl
  | cons kv rest ih => simp [encodeFieldList, ih]

theorem vdepth_pos (v : Value) : 1 ≤ vdepth v := by
  cases v <;> simp [vdepth]

theorem vdepthList_mem {l : List Value} {x : Value} (h : x ∈ l) :
    vdepth x ≤ vdepthList l := by
  induction l with
  | nil => cases h
  | cons v vs ih =>
    cases h with
    | head => exact le_max_left _ _
    | tail _ hm => exact le_trans (ih hm) (le_max_right _ _)

theorem vdepthFields_mem {l : List (Text × Value)} {kv : Text × Value} (h : kv ∈ l) :
    vdepth kv.2 ≤ vdepthFields l := by
  induction l with
  | nil => cases h
  | cons p rest ih =>
    cases h with
    | head => exact le_max_left _ _
    | tail _ hm => exact le_trans (ih hm) (le_max_right _ _)

theorem wfValueList_mem {l : List Value} (h : wfValueList l = true) :
    ∀ x ∈ l, wfValue x = true := by
  induction l with
  | nil => intro x hx; cases hx
  | cons v vs ih =>
    intro x hx
    rw [show wfValueList (v :: vs) = (wfValue v && wfValueList vs) from rfl] at h
    simp only [Bool.and_eq_true] at h
    cases hx with
    | head => exact h.1
    | tail _ hm => exact ih h.2 x hm

theorem wfFieldList_mem {l : List (Text × Value)} (h : wfFieldList l = true) :
    ∀ kv ∈ l, kv.1.bytes.length < 2 ^ 64 ∧ wfValue kv.2 = true := by
  induction l with
  | nil => intro kv hkv; cases hkv
  | cons p rest ih =>
    intro kv hkv
    rw [show wfFieldList (p :: rest)
        = ((decide (p.1.bytes.length < 2 ^ 64) && wfValue p.2) && wfFieldList rest)
        from rfl] at h
    simp only [Bool.and_eq_true, decide_eq_true_eq] at h
    cases hkv with
    | head => exact h.1
    | tail _ hm => exact ih h.2 kv hm

theorem decodeValue_enc :
    ∀ fuel (v : Value) (rest : List Nat), wfValue v = true → vdepth v ≤ fuel →
      decodeValue fuel (encodeValue v ++ rest) = some (v, rest) := by
  intro fuel
  induction fuel with
  | zero =>
    intro v rest _ hd
    exact absurd hd (by have := vdepth_pos v; omega)
  | succ fuel ih =>
    intro v rest hwf hd
    rw [show decodeValue (fuel + 1) = decodeValueBody (decodeValue fuel) from rfl]
    cases v with
    | null => rfl
    | bool b =>
      show decodeValueBody (decodeValue fuel) (1 :: (encBool b ++ rest)) = _
      simp [decodeValueBody, readBool_enc]
    | string t =>
      simp only [wfValue, decide_eq_true_eq] at hwf
      show decodeValueBody (decodeValue fuel) (2 :: (encBytesRun t.bytes ++ rest)) = _
      simp [decodeValueBody, readBytesRun_enc t.bytes hwf rest]
    | bytes b =>
      simp only [wfValue, decide_eq_true_eq] at hwf
      show decodeValueBody (decodeValue fuel) (3 :: (encBytesRun b.bytes ++ rest)) = _
      simp [decodeValueBody, readBytesRun_enc b.bytes hwf rest]
    | u64 n =>
      simp only [wfValue, decide_eq_true_eq] at hwf
      show decodeValueBody (decodeValue fuel) (4 :: (encU64 n ++ rest)) = _
      simp [decodeValueBody, readU64_enc n hwf rest]
    | i64 i =>
      simp only [wfValue, decide_eq_true_eq] at hwf
      show decodeValueBody (decodeValue fuel) (5 :: (encI64 i ++ rest)) = _
      simp [decodeValueBody, readI64_enc i hwf.1 hwf.2 rest]
    | f64 n =>
      simp only [wfValue, decide_eq_true_eq] at hwf
      show decodeValueBody (decodeValue fuel) (6 :: (encU64 n ++ rest)) = _
      simp [decodeValueBody, readU64_enc n hwf rest]
    | date i =>
      simp only [wfValue, decide_eq_true_eq] at hwf
      show decodeValueBody (decodeValue fuel) (7 :: (encI64 i ++ rest)) = _
      simp [decodeValueBody, readI64_enc i hwf.1 hwf.2 rest]
    | arrayBool l =>
      simp only [wfValue, decide_eq_true_eq] at hwf
      show decodeValueBody (decodeValue fuel) (8 :: (encCounted encBool l ++ rest)) = _
      simp [decodeValueBody,
        readCounted_enc encBool readBoolByte l rest hwf (fun x _ r => readBool_enc x r)]
    | arrayString l =>
      simp only [wfValue, Bool.and_eq_true, decide_eq_true_eq, List.all_eq_true] at hwf
      show decodeValueBody (decodeValue fuel)
          (9 :: (encCounted (fun t => encBytesRun t.bytes) l ++ rest)) = _
      simp [decodeValueBody,
        readCounted_enc (fun t => encBytesRun t.bytes) readTextElem l rest hwf.1
          (fun t ht r => by
            have hb : t.bytes.length < 2 ^ 64 := by
              have := hwf.2 t ht
              simpa using this
            unfold readTextElem
            rw [readBytesRun_enc t.bytes hb r])]
    | arrayBytes l =>
      simp only [wfValue, Bool.and_eq_true, decide_eq_true_eq, List.all_eq_true] at hwf
      show decodeValueBody (decodeValue fuel)
          (10 :: (encCounted (fun b => encBytesRun b.bytes) l ++ rest)) = _
      simp [decodeValueBody,
        readCounted_enc (fun b => encBytesRun b.bytes) readBytesElem l rest hwf.1
          (fun b hb r => by
            have hlb : b.bytes.length < 2 ^ 64 := by
              have := hwf.2 b hb
              simpa using this
            unfold readBytesElem
            rw [readBytesRun_enc b.bytes hlb r])]
    | arrayU64 l =>
      simp only [wfValue, Bool.and_eq_true, decide_eq_true_eq, List.all_eq_true] at hwf
      show decodeValueBody (decodeValue fuel) (11 :: (encCounted encU64 l ++ rest)) = _
      simp [decodeValueBody,
        readCounted_enc encU64 readU64 l rest hwf.1
          (fun n hn r => readU64_enc n (by simpa using hwf.2 n hn) r)]
    | arrayI64 l =>
      simp only [wfValue, Bool.and_eq_true, decide_eq_true_eq, List.all_eq_true] at hwf
      show decodeValueBody (decodeValue fuel) (12 :: (encCounted encI64 l ++ rest)) = _
      simp [decodeValueBody,
        readCounted_enc encI64 readI64 l rest hwf.1
          (fun i hi r => by
            have hb := hwf.2 i hi
            simp only [decide_eq_true_eq] at hb
            exact readI64_enc i hb.1 hb.2 r)]
    | arrayF64 l =>
      simp only [wfValue, Bool.and_eq_true, decide_eq_true_eq, List.all_eq_true] at hwf
      show decodeValueBody (decodeValue fuel) (13 :: (encCounted encU64 l ++ rest)) = _
      simp [decodeValueBody,
        readCounted_enc encU64 readU64 l rest hwf.1
          (fun n hn r => readU64_enc n (by simpa using hwf.2 n hn) r)]
    | arrayDate l =>
      simp only [wfValue, Bool.and_eq_true, decide_eq_true_eq, List.all_eq_true] at hwf
      show decodeValueBody (decodeValue fuel) (14 :: (encCounted encI64 l ++ rest)) = _
      simp [decodeValueBody,
        readCounted_enc encI64 readI64 l rest hwf.1
          (fun i hi r => by
            have hb := hwf.2 i hi
            simp only [decide_eq_true_eq] at hb
            exact readI64_enc i hb.1 hb.2 r)]
    | arrayDynamic l =>
      simp only [wfValue, Bool.and_eq_true, decide_eq_true_eq] at hwf
      have hfuel : vdepthList l ≤ fuel := by
        have : vdepth (Value.arrayDynamic l) = vdepthList l + 1 := rfl
        omega
      have henc : encU64 l.length ++ encodeValueList l = encCounted encodeValue l := by
        rw [encodeValueList_eq]
        rfl
      show decodeValueBody (decodeValue fuel)
          (15 :: ((encU64 l.length ++ encodeValueList l) ++ rest)) = _
      rw [henc]
      simp [decodeValueBody,
        readCounted_enc encodeValue (decodeValue fuel) l rest hwf.1
          (fun x hx r =>
            ih x r (wfValueList_mem hwf.2 x hx)
              (le_trans (vdepthList_mem hx) hfuel))]
    | object l =>
      simp only [wfValue, Bool.and_eq_true, decide_eq_true_eq] at hwf
      have hfuel : vdepthFields l ≤ fuel := by
        have : vdepth (Value.object l) = vdepthFields l + 1 := rfl
        omega
      have henc : encU64 l.length ++ encodeFieldList l =
          encCounted (fun kv => encBytesRun kv.1.bytes ++ encodeValue kv.2) l := by
        rw [encodeFieldList_eq]
        rfl
      show decodeValueBody (decodeValue fuel)
          (16 :: ((encU64 l.length ++ encodeFieldList l) ++ rest)) = _
      rw [henc]
      simp [decodeValueBody,
        readCounted_enc (fun kv => encBytesRun kv.1.bytes ++ encodeValue kv.2)
          (readFieldWith (decodeValue fuel)) l rest hwf.1
          (fun kv hkv r => by
            have hk := wfFieldList_mem hwf.2 kv hkv
            unfold readFieldWith
            rw [List.append_assoc]
            simp only [readBytesRun_enc kv.1.bytes hk.1,
              ih kv.2 r hk.2 (le_trans (vdepthFields_mem hkv) hfuel)])]

theorem flatten_mem_length {α : Type} (f : α → List Nat) {l : List α} {x : α}
    (h : x ∈ l) : (f x).length ≤ ((l.map f).flatten).length := by
  induction l with
  | nil => cases h
  | cons y ys ih =>
    rw [List.map_cons, List.flatten_cons, List.length_append]
    cases h with
    | head => exact Nat.le_add_right _ _
    | tail _ hm => exact le_trans (ih hm) (Nat.le_add_left _ _)

theorem vdepthList_le {l : List Value}
    (H : ∀ x ∈ l, vdepth x ≤ (encodeValue x).length) :
    vdepthList l ≤ ((l.map encodeValue).flatten).length := by
  induction l with
  | nil => simp [vdepthList]
  | cons v vs ih =>
    rw [show vdepthList (v :: vs) = max (vdepth v) (vdepthList vs) from rfl]
    rw [List.map_cons, List.flatten_cons, List.length_append]
    exact max_le (le_trans (H v (by simp)) (Nat.le_add_right _ _))
      (le_trans (ih (fun z hz => H z (by simp [hz]))) (Nat.le_add_left _ _))

theorem vdepthFields_le {l : List (Text × Value)}
    (H : ∀ kv ∈ l, vdepth kv.2 ≤ (encodeValue kv.2).length) :
    vdepthFields l ≤
      ((l.map (fun kv => encBytesRun kv.1.bytes ++ encodeValue kv.2)).flatten).length := by
  induction l with
  | nil => simp [vdepthFields]
  | cons kv rest ih =>
    rw [show vdepthFields (kv :: rest) = max (vdepth kv.2) (vdepthFields rest) from rfl]
    rw [List.map_cons, List.flatten_cons, List.length_append, List.length_append]
    have h1 := H kv (by simp)
    have h2 := ih (fun z hz => H z (by simp [hz]))
    omega

theorem vdepth_le_encLen : ∀ v : Value, vdepth v ≤ (encodeValue v).length := by
  have Hmain : ∀ n (v : Value), sizeOf v ≤ n → vdepth v ≤ (encodeValue v).length := by
    intro n
    induction n using Nat.strong_induction_on with
    | _ n ih =>
      intro v hv
      cases v with
      | arrayDynamic l =>
        have hlist : ∀ x ∈ l, vdepth x ≤ (encodeValue x).length := by
          intro x hx
          refine ih (sizeOf x) ?_ x (le_refl _)
          have h1 : sizeOf x < sizeOf l := List.sizeOf_lt_of_mem hx
          have h2 : sizeOf (Value.arrayDynamic l) ≤ n := hv
          simp only [Value.arrayDynamic.sizeOf_spec] at h2
          omega
        have hle := vdepthList_le hlist
        rw [show vdepth (Value.arrayDynamic l) = vdepthList l + 1 from rfl]
        rw [show encodeValue (Value.arrayDynamic l)
            = 15 :: (encU64 l.length ++ encodeValueList l) from rfl]
        rw [encodeValueList_eq]
        simp only [List.length_cons, List.length_append]
        omega
      | object l =>
        have hlist : ∀ kv ∈ l, vdepth kv.2 ≤ (encodeValue kv.2).length := by
          intro kv hkv
          refine ih (sizeOf kv.2) ?_ kv.2 (le_refl _)
          have h1 : sizeOf kv < sizeOf l := List.sizeOf_lt_of_mem hkv
          have h2 : sizeOf (Value.object l) ≤ n := hv
          have h3 : sizeOf kv.2 < sizeOf kv := by
            cases kv; simp
          simp only [Value.object.sizeOf_spec] at h2
          omega
        have hle := vdepthFields_le hlist
        rw [show vdepth (Value.object l) = vdepthFields l + 1 from rfl]
        rw [show encodeValue (Value.object l)
            = 16 :: (encU64 l.length ++ encodeFieldList l) from rfl]
        rw [encodeFieldList_eq]
        simp only [List.length_cons, List.length_append]
        omega
      | null => simp [vdepth, encodeValue]
      | bool b => simp [vdepth, encodeValue]
      | string t => simp [vdepth, encodeValue]
      | bytes b => simp [vdepth, encodeValue]
      | u64 m => simp [vdepth, encodeValue]
      | i64 i => simp [vdepth, encodeValue]
      | f64 m => simp [vdepth, encodeValue]
      | date i => simp [vdepth, encodeValue]
      | arrayBool l => simp [vdepth, encodeValue]
      | arrayString l => simp [vdepth, encodeValue]
      | arrayBytes l => simp [vdepth, encodeValue]
      | arrayU64 l => simp [vdepth, encodeValue]
      | arrayI64 l => simp [vdepth, encodeValue]
      | arrayF64 l => simp [vdepth, encodeValue]
      | arrayDate l => simp [vdepth, encodeValue]
  intro v
  exact Hmain (sizeOf v) v (le_refl _)

/-- C1: encoding a well-formed Document into a frame and decoding that frame
in validated mode succeeds and yields a structurally equal document — same
id, same fields in the same order, equal keys, value tags and payload
bytes. The hypotheses are the invariants the Rust types carry for free:
64-bit ranges for id, scalars and vector lengths, and a data section below
2³² bytes (the footer stores a u32 length). -/
theorem encode_decode_roundtrip (d : Document) (hwf : wfDocument d = true)
    (hlen : (documentData d).length < 2 ^ 32) :
    decodeFrame (encodeFrame d) = some d := by
  simp only [wfDocument, Bool.and_eq_true, decide_eq_true_eq] at hwf
  obtain ⟨⟨hid, hnf⟩, hfl⟩ := hwf
  have hck : checksum (documentData d) < 2 ^ 32 := Nat.mod_lt _ (by norm_num)
  have hc4 : (natLE 4 (checksum (documentData d))).length = 4 := natLE_length 4 _
  have hl4 : (natLE 4 (documentData d).length).length = 4 := natLE_length 4 _
  have e1 : (encodeFrame d).length = (documentData d).length + 8 := by
    unfold encodeFrame
    rw [List.length_append, List.length_append, hc4, hl4]
  have e2 : (encodeFrame d).length - 8 = (documentData d).length := by
    omega
  have e3 : (encodeFrame d).take ((encodeFrame d).length - 8) = documentData d := by
    rw [e2]
    unfold encodeFrame
    rw [List.append_assoc]
    exact take_append_len rfl
  have e4 : (encodeFrame d).drop ((encodeFrame d).length - 8) =
      natLE 4 (checksum (documentData d)) ++ natLE 4 (documentData d).length := by
    rw [e2]
    unfold encodeFrame
    rw [List.append_assoc]
    exact drop_append_len rfl
  unfold decodeFrame
  rw [if_pos (by rw [e1]; omega)]
  rw [e3, e4, take_append_len hc4, drop_append_len hc4]
  have pf1 : leNat (natLE 4 (checksum (documentData d))) = checksum (documentData d) := by
    rw [leNat_natLE]
    exact Nat.mod_eq_of_lt (by norm_num at hck ⊢; omega)
  have pf2 : leNat (natLE 4 (documentData d).length) = (documentData d).length := by
    rw [leNat_natLE]
    exact Nat.mod_eq_of_lt (by norm_num at hlen ⊢; omega)
  rw [if_pos ⟨pf1, pf2⟩]
  have ha : documentData d =
      encU64 d.id ++ (encU64 d.fields.length ++ encodeFieldList d.fields) := by
    unfold documentData
    rw [List.append_assoc]
  unfold decodeDocumentData
  rw [ha]
  set N := (encU64 d.id ++ (encU64 d.fields.length ++ encodeFieldList d.fields)).length
    with hN
  have hNlen : (encodeFieldList d.fields).length ≤ N := by
    rw [hN, List.length_append, List.length_append]
    omega
  have H : ∀ kv ∈ d.fields, ∀ r,
      readFieldWith (decodeValue N)
        ((encBytesRun kv.1.bytes ++ encodeValue kv.2) ++ r) = some (kv, r) := by
    intro kv hkv r
    have hk := wfFieldList_mem hfl kv hkv
    have hd1 : (encodeValue kv.2).length ≤
        (encBytesRun kv.1.bytes ++ encodeValue kv.2).length := by
      rw [List.length_append]
      omega
    have hd2 : (encBytesRun kv.1.bytes ++ encodeValue kv.2).length ≤
        (encodeFieldList d.fields).length := by
      rw [encodeFieldList_eq]
      exact flatten_mem_length
        (fun kv => encBytesRun kv.1.bytes ++ encodeValue kv.2) hkv
    have hfuel : vdepth kv.2 ≤ N :=
      le_trans (vdepth_le_encLen kv.2)
        (le_trans hd1 (le_trans hd2 hNlen))
    unfold readFieldWith
    rw [List.append_assoc]
    simp only [readBytesRun_enc kv.1.bytes hk.1,
      decodeValue_enc _ kv.2 r hk.2 hfuel]
  have hcount :
      readCount (readFieldWith (decodeValue N))
        d.fields.length (encodeFieldList d.fields) = some (d.fields, []) := by
    rw [encodeFieldList_eq,
      show ((d.fields.map (fun kv => encBytesRun kv.1.bytes ++ encodeValue kv.2)).flatten)
        = ((d.fields.map (fun kv => encBytesRun kv.1.bytes ++ encodeValue kv.2)).flatten ++ [])
        from (List.append_nil _).symm]
    exact readCount_enc _ _ d.fields [] H
  simp only [readU64_enc d.id hid, readU64_enc d.fields.length hnf, hcount]
  rfl

/-- C1 witness: the spec's worked example (§8) — `Document{id: 7, fields:
[("name", String("a")), ("age", U64(3))]}` — is well-formed, its data
section fits the u32 length field, and the validated decode of its frame
reproduces it exactly. -/
theorem encode_decode_roundtrip_witness :
    wfDocument
        ⟨7, [(⟨[110, 97, 109, 101]⟩, .string ⟨[97]⟩), (⟨[97, 103, 101]⟩, .u64 3)]⟩ =
        true ∧
    (documentData
        ⟨7, [(⟨[110, 97, 109, 101]⟩, .string ⟨[97]⟩), (⟨[97, 103, 101]⟩, .u64 3)]⟩).length <
        2 ^ 32 ∧
    decodeFrame (encodeFrame
        ⟨7, [(⟨[110, 97, 109, 101]⟩, .string ⟨[97]⟩), (⟨[97, 103, 101]⟩, .u64 3)]⟩) =
      some ⟨7, [(⟨[110, 97, 109, 101]⟩, .string ⟨[97]⟩), (⟨[97, 103, 101]⟩, .u64 3)]⟩ :=
  ⟨by decide, by decide,
    encode_decode_roundtrip
      ⟨7, [(⟨[110, 97, 109, 101]⟩, .string ⟨[97]⟩), (⟨[97, 103, 101]⟩, .u64 3)]⟩
      (by decide) (by decide)⟩

end Bellini
